import Mathlib

/-!
# Verification of the gipo `backup` package

A shallow embedding of the backup/restore subsystem (file `backup.go`,
package `backup`): the gzipped-tar archiver, scrypt key derivation,
XChaCha20-Poly1305 sealing, and the `GPBK` container format, together with
proofs of the specification's testable properties.

Byte sequences are `List Nat` with every element below 256.  The external
cryptographic and compression libraries (`golang.org/x/crypto`,
`archive/tar`, `compress/gzip`) are not part of the repository; they are
modelled from the specification as idealized executable functions, each
marked `Modelled from the spec:` in its doc comment.  Everything else is
translated directly from the Go source.
-/

namespace Gipo

abbrev Bytes := List Nat

/-- Big-endian 8-byte encoding of a 64-bit integer, as produced by
`binary.BigEndian.PutUint64`. -/
def be64 (n : Nat) : Bytes :=
  [n / 2 ^ 56 % 256, n / 2 ^ 48 % 256, n / 2 ^ 40 % 256, n / 2 ^ 32 % 256,
   n / 2 ^ 24 % 256, n / 2 ^ 16 % 256, n / 2 ^ 8 % 256, n % 256]

/-- Big-endian decoding, as performed by `binary.BigEndian.Uint64` on an
8-byte slice. -/
def be64dec (b : Bytes) : Nat :=
  b.foldl (fun acc x => acc * 256 + x) 0

theorem be64_length (n : Nat) : (be64 n).length = 8 := rfl

theorem be64dec_be64 (n : Nat) (h : n < 2 ^ 64) : be64dec (be64 n) = n := by
  simp only [be64, be64dec, List.foldl]
  omega

/-! ## Container codec

`Backup` writes, in order: magic `"GPBK"` (4 bytes), version byte `0x01`,
16-byte salt, 24-byte nonce, 8-byte big-endian timestamp, 8-byte big-endian
ciphertext length, then the ciphertext.  `Restore` parses that layout back,
validating length, magic, version and the declared ciphertext length. -/

/-- The ASCII bytes of the file magic `"GPBK"`. -/
def magicBytes : Bytes := [71, 80, 66, 75]

/-- The format version byte written by `Backup`. -/
def versionByte : Nat := 1

/-- `saltLen = 16`. -/
def saltLen : Nat := 16

/-- `nonceLen = chacha20poly1305.NonceSizeX = 24`. -/
def nonceLen : Nat := 24

/-- Fixed header length: `4 + 1 + saltLen + nonceLen + 8 + 8`. -/
def headerLen : Nat := 4 + 1 + saltLen + nonceLen + 8 + 8

/-- The error values `Restore` can return before touching the filesystem,
plus the archive/filesystem errors of the extraction phase. -/
inductive RErr where
  /-- `ErrBadFormat` (`"bad backup format"`). -/
  | badFormat
  /-- `fmt.Errorf("unsupported version: %d", v)`. -/
  | unsupportedVersion (v : Nat)
  /-- The single opaque error of `aead.Open` (tag verification failed). -/
  | authFailure
  /-- A gzip/tar decoding error in the extraction phase. -/
  | archiveCorrupt
  /-- A filesystem error (`os.MkdirAll` / `os.OpenFile` / `io.Copy`). -/
  | ioError
  deriving DecidableEq, Repr

/-- One `f.Write(chunk)` call appending to the output file. -/
def writeBytes (file chunk : Bytes) : Bytes := file ++ chunk

/-- The container bytes produced by `Backup`'s write sequence: magic,
version, salt, nonce, timestamp, ciphertext length, ciphertext. -/
def encodeContainer (salt nonce : Bytes) (ts : Nat) (ct : Bytes) : Bytes :=
  List.foldl writeBytes []
    [magicBytes, [versionByte], salt, nonce, be64 ts, be64 ct.length, ct]

/-- The parsing phase of `Restore` (lines checking length, magic, version,
slicing salt/nonce, skipping the timestamp, and checking the declared
ciphertext length against the remaining bytes). -/
def decodeContainer (b : Bytes) : Except RErr (Bytes × Bytes × Bytes) :=
  if b.length < headerLen then .error .badFormat
  else if b.take 4 ≠ magicBytes then .error .badFormat
  else if b.getD 4 0 ≠ versionByte then .error (.unsupportedVersion (b.getD 4 0))
  else
    let salt := (b.drop 5).take saltLen
    let nonce := (b.drop 21).take nonceLen
    let cLen := be64dec ((b.drop 53).take 8)
    if cLen ≠ b.length - headerLen then .error .badFormat
    else .ok (salt, nonce, b.drop headerLen)

theorem encodeContainer_eq (salt nonce : Bytes) (ts : Nat) (ct : Bytes) :
    encodeContainer salt nonce ts ct =
      magicBytes ++ [versionByte] ++ salt ++ nonce ++ be64 ts ++ be64 ct.length ++ ct := by
  simp [encodeContainer, writeBytes]

theorem encodeContainer_length (salt nonce : Bytes) (ts : Nat) (ct : Bytes)
    (hs : salt.length = saltLen) (hn : nonce.length = nonceLen) :
    (encodeContainer salt nonce ts ct).length = headerLen + ct.length := by
  simp [encodeContainer_eq, magicBytes, hs, hn, headerLen, saltLen, nonceLen,
    be64, versionByte]
  omega

theorem be64dec_be64_mod (n : Nat) : be64dec (be64 n) = n % 2 ^ 64 := by
  simp only [be64, be64dec, List.foldl]
  omega

theorem decode_append (salt nonce tsb : Bytes) (L : Nat) (ct : Bytes)
    (hs : salt.length = saltLen) (hn : nonce.length = nonceLen)
    (hts : tsb.length = 8) :
    decodeContainer (magicBytes ++ [versionByte] ++ salt ++ nonce ++ tsb ++ be64 L ++ ct) =
      if L % 2 ^ 64 ≠ ct.length then .error .badFormat else .ok (salt, nonce, ct) := by
  set b := magicBytes ++ [versionByte] ++ salt ++ nonce ++ tsb ++ be64 L ++ ct with hb
  have hlen : b.length = headerLen + ct.length := by
    simp [hb, magicBytes, hs, hn, hts, headerLen, saltLen, nonceLen, be64, versionByte]
    omega
  have htail : b =
      (magicBytes ++ [versionByte]) ++ (salt ++ (nonce ++ (tsb ++ (be64 L ++ ct)))) := by
    simp [hb, List.append_assoc]
  have htake4 : b.take 4 = magicBytes := by
    rw [hb]
    simp [magicBytes, versionByte]
  have hdrop5 : b.drop 5 = salt ++ (nonce ++ (tsb ++ (be64 L ++ ct))) := by
    rw [htail, List.drop_append_of_le_length (by simp [magicBytes, versionByte])]
    simp [magicBytes, versionByte]
  have hdropSalt : b.drop 21 = nonce ++ (tsb ++ (be64 L ++ ct)) := by
    have : (21 : Nat) = 5 + salt.length := by rw [hs]; rfl
    rw [this, ← List.drop_drop, hdrop5, List.drop_append_of_le_length (le_of_eq rfl.symm)]
    simp
  have hdropNonce : b.drop 53 = be64 L ++ ct := by
    have : (53 : Nat) = 21 + nonce.length + 8 := by rw [hn]; rfl
    rw [this, ← List.drop_drop, ← List.drop_drop, hdropSalt]
    rw [List.drop_append_of_le_length (le_of_eq rfl.symm)]
    simp only [List.drop_length, List.nil_append]
    exact List.drop_left' hts
  have hget4 : b.getD 4 0 = versionByte := by
    rw [hb]
    simp [magicBytes]
  unfold decodeContainer
  rw [if_neg (by omega), if_neg (by simp [htake4]),
    if_neg (by simp only [hget4, ne_eq, not_not])]
  have hsalt : (b.drop 5).take saltLen = salt := by
    rw [hdrop5, List.take_append_of_le_length (le_of_eq hs.symm)]
    simpa using List.take_of_length_le (le_of_eq hs)
  have hnonce' : (b.drop 21).take nonceLen = nonce := by
    rw [hdropSalt, List.take_append_of_le_length (le_of_eq hn.symm)]
    simpa using List.take_of_length_le (le_of_eq hn)
  have hclen : be64dec ((b.drop 53).take 8) = L % 2 ^ 64 := by
    rw [hdropNonce, List.take_append_of_le_length (by simp [be64])]
    rw [List.take_of_length_le (by simp [be64])]
    exact be64dec_be64_mod _
  have hctail : b.drop headerLen = ct := by
    have : headerLen = 53 + 8 := rfl
    rw [this, ← List.drop_drop, hdropNonce, List.drop_append_of_le_length (by simp [be64])]
    simp [be64]
  simp only [hsalt, hnonce', hclen, hctail]
  have hsub : b.length - headerLen = ct.length := by omega
  rw [hsub]

theorem decode_encode (salt nonce : Bytes) (ts : Nat) (ct : Bytes)
    (hs : salt.length = saltLen) (hn : nonce.length = nonceLen)
    (hc : ct.length < 2 ^ 64) :
    decodeContainer (encodeContainer salt nonce ts ct) = .ok (salt, nonce, ct) := by
  rw [encodeContainer_eq, decode_append salt nonce (be64 ts) ct.length ct hs hn (be64_length ts)]
  rw [if_neg (by omega)]

/-- `decodeContainer` fails exactly on: short input, wrong magic, wrong
version, or a length-field mismatch. -/
theorem decode_error_iff (b : Bytes) :
    (∃ e, decodeContainer b = .error e) ↔
      (b.length < headerLen ∨ b.take 4 ≠ magicBytes ∨ b.getD 4 0 ≠ versionByte ∨
       be64dec ((b.drop 53).take 8) ≠ b.length - headerLen) := by
  unfold decodeContainer
  split_ifs with h1 h2 h3 <;> simp_all
  split_ifs with h4 <;> simp_all

/-! ## Key derivation and authenticated encryption

The scrypt KDF and the XChaCha20-Poly1305 AEAD live in
`golang.org/x/crypto`, outside this repository; they are modelled from the
specification as executable idealizations. -/

/-- Modelled from the spec: `deriveKey` wraps the external
`scrypt.Key(pass, salt, N, r, p, 32)` — a deterministic, memory-hard
function of the passphrase and salt producing a 32-byte key.  The model
mixes passphrase and salt bytes into each output position. -/
def deriveKey (pass salt : Bytes) : Bytes :=
  (List.range 32).map fun i =>
    (pass.foldl (fun a x => a * 31 + x) 0 + salt.foldl (fun a x => a * 37 + x) 0 + i) % 256

theorem deriveKey_length (pass salt : Bytes) : (deriveKey pass salt).length = 32 := by
  simp [deriveKey]

/-- Modelled from the spec: the external AEAD `aead.Seal(nil, nonce,
plaintext, nil)` — the ciphertext carries the plaintext together with an
appended authentication tag that binds key, nonce and plaintext; the
idealization makes the binding exact. -/
def sealM (key nonce pt : Bytes) : Bytes :=
  pt ++ key ++ nonce ++ pt

/-- Modelled from the spec: the external AEAD `aead.Open(nil, nonce,
ciphertext, nil)` — verifies the tag before releasing any plaintext and
returns a single opaque failure (`none`) otherwise, so wrong key and
tampered data are indistinguishable. -/
def openM (key nonce ct : Bytes) : Option Bytes :=
  let k := key.length + nonce.length
  if k ≤ ct.length ∧ (ct.length - k) % 2 = 0 then
    let m := (ct.length - k) / 2
    if ct.drop m = key ++ nonce ++ ct.take m then some (ct.take m) else none
  else none

theorem sealM_length (key nonce pt : Bytes) :
    (sealM key nonce pt).length = 2 * pt.length + key.length + nonce.length := by
  simp [sealM]
  omega

theorem getD_drop (l : Bytes) (n j : Nat) : (l.drop n).getD j 0 = l.getD (n + j) 0 := by
  simp [List.getD, List.getElem?_drop]

theorem getD_take (l : Bytes) {n j : Nat} (h : j < n) : (l.take n).getD j 0 = l.getD j 0 := by
  simp [List.getD, List.getElem?_take_of_lt h]

theorem getD_eq_zero_of_le (l : Bytes) {j : Nat} (h : l.length ≤ j) : l.getD j 0 = 0 := by
  simp [List.getD_eq_getElem?_getD, List.getElem?_eq_none h]

theorem eq_of_getD_eq (l₁ l₂ : Bytes) (hlen : l₁.length = l₂.length)
    (h : ∀ j, l₁.getD j 0 = l₂.getD j 0) : l₁ = l₂ := by
  apply List.ext_getElem?
  intro n
  by_cases hn : n < l₁.length
  · have h1 : l₁[n]? = some l₁[n] := List.getElem?_eq_getElem hn
    have h2 : l₂[n]? = some l₂[n] := List.getElem?_eq_getElem (hlen ▸ hn)
    have h3 := h n
    rw [List.getD_eq_getElem?_getD, List.getD_eq_getElem?_getD, h1, h2] at h3
    simp only [Option.getD_some] at h3
    rw [h1, h2, h3]
  · rw [List.getElem?_eq_none (by omega), List.getElem?_eq_none (by omega)]

theorem sealM_take (key nonce pt : Bytes) :
    (sealM key nonce pt).take pt.length = pt := by
  rw [sealM, List.append_assoc, List.append_assoc, List.take_left' rfl]

theorem sealM_drop (key nonce pt : Bytes) :
    (sealM key nonce pt).drop pt.length = key ++ nonce ++ pt := by
  rw [sealM, List.append_assoc, List.append_assoc, List.drop_left' rfl,
    ← List.append_assoc]

theorem sealM_getD_body (key nonce pt : Bytes) {j : Nat} (hj : j < pt.length) :
    (sealM key nonce pt).getD j 0 = pt.getD j 0 := by
  conv_rhs => rw [← sealM_take key nonce pt]
  rw [getD_take _ hj]

theorem open_seal (key nonce pt : Bytes) :
    openM key nonce (sealM key nonce pt) = some pt := by
  have hlen := sealM_length key nonce pt
  have hm : ((sealM key nonce pt).length - (key.length + nonce.length)) / 2 = pt.length := by
    omega
  unfold openM
  rw [if_pos (by omega)]
  simp only [hm, sealM_take, sealM_drop]
  simp

/-- Opening under a different key of the same length fails: the tag binds
the key. -/
theorem open_seal_wrong_key (key key' nonce pt : Bytes)
    (hlen : key'.length = key.length) (hne : key' ≠ key) :
    openM key' nonce (sealM key nonce pt) = none := by
  have hsl := sealM_length key nonce pt
  have hm : ((sealM key nonce pt).length - (key'.length + nonce.length)) / 2 = pt.length := by
    omega
  unfold openM
  rw [if_pos (by omega)]
  simp only [hm, sealM_take, sealM_drop]
  rw [if_neg]
  intro h
  rw [List.append_assoc, List.append_assoc] at h
  exact hne (List.append_inj_left h hlen.symm).symm

/-- Altering a single byte anywhere in the ciphertext makes `openM` fail:
the ciphertext is tamper-evident. -/
theorem open_seal_tampered (key nonce pt ct' : Bytes) (i : Nat)
    (hlen : ct'.length = (sealM key nonce pt).length)
    (hi : i < ct'.length)
    (hdiff : ct'.getD i 0 ≠ (sealM key nonce pt).getD i 0)
    (hsame : ∀ j, j ≠ i → ct'.getD j 0 = (sealM key nonce pt).getD j 0) :
    openM key nonce ct' = none := by
  have hsl := sealM_length key nonce pt
  have hm : (ct'.length - (key.length + nonce.length)) / 2 = pt.length := by
    omega
  unfold openM
  rw [if_pos (by omega)]
  simp only [hm]
  rw [if_neg]
  intro hck
  by_cases hcase : i < pt.length
  · -- the altered byte is in the body: the tag pins the body to pt
    have htailEq : ct'.drop pt.length = (sealM key nonce pt).drop pt.length := by
      apply eq_of_getD_eq _ _ (by simp [hlen])
      intro j
      rw [getD_drop, getD_drop]
      exact hsame _ (by omega)
    have hbody : ct'.take pt.length = pt := by
      have h1 : key ++ nonce ++ ct'.take pt.length = key ++ nonce ++ pt := by
        rw [← hck, htailEq, sealM_drop]
      rw [List.append_assoc, List.append_assoc] at h1
      exact List.append_cancel_left (List.append_cancel_left h1)
    apply hdiff
    calc ct'.getD i 0 = (ct'.take pt.length).getD i 0 := (getD_take _ hcase).symm
      _ = pt.getD i 0 := by rw [hbody]
      _ = ((sealM key nonce pt).take pt.length).getD i 0 := by rw [sealM_take]
      _ = (sealM key nonce pt).getD i 0 := getD_take _ hcase
  · -- the altered byte is in the tag: the recomputed tag disagrees
    have hbody : ct'.take pt.length = pt := by
      apply eq_of_getD_eq
      · simp [hlen]
        omega
      · intro j
        by_cases hj : j < pt.length
        · rw [getD_take _ hj, hsame j (by omega), sealM_getD_body _ _ _ hj]
        · rw [getD_eq_zero_of_le _ (by simp; omega), getD_eq_zero_of_le _ (by omega)]
    apply hdiff
    have h1 : ct'.drop pt.length = (sealM key nonce pt).drop pt.length := by
      rw [hck, hbody, sealM_drop]
    calc ct'.getD i 0 = (ct'.drop pt.length).getD (i - pt.length) 0 := by
          rw [getD_drop]
          congr 1
          omega
      _ = ((sealM key nonce pt).drop pt.length).getD (i - pt.length) 0 := by rw [h1]
      _ = (sealM key nonce pt).getD i 0 := by
          rw [getD_drop]
          congr 1
          omega

/-! ## Archive layer

`createTarGzip` walks the tree and writes one tar header (name, mode,
type flag) per entry, plus file content for regular files; `Restore`'s
loop reads the entries back.  The tar entry is translated from the source;
the tar/gzip byte framing itself is external library code and is modelled
from the spec as an injective serialization with an exact decoder. -/

/-- `tar.TypeReg = '0'`. -/
def tReg : Nat := 48

/-- `tar.TypeDir = '5'`. -/
def tDir : Nat := 53

/-- One tar entry as written by `createTarGzip`: the slash-separated
relative path (`hdr.Name`), the type flag, the permission bits
(`hdr.Mode`) and, for regular files, the content bytes. -/
structure TarEnt where
  name : Bytes
  typeflag : Nat
  mode : Nat
  content : Bytes
  deriving DecidableEq, Repr

/-- Modelled from the spec: serialization of a single entry inside the
gzipped tar stream (`archive/tar` + `compress/gzip`, external), idealized
as a length-prefixed record. -/
def encodeEntry (e : TarEnt) : Bytes :=
  be64 e.name.length ++ e.name ++ [e.typeflag] ++ be64 e.mode ++
    be64 e.content.length ++ e.content

/-- Modelled from the spec: the archive byte stream is the entry count
followed by the serialized entries. -/
def encodeArchive (ar : List TarEnt) : Bytes :=
  be64 ar.length ++ (ar.map encodeEntry).flatten

/-- Reads one serialized entry off the front of the stream. -/
def decodeEntry (b : Bytes) : Option (TarEnt × Bytes) :=
  if 8 ≤ b.length then
    let nlen := be64dec (b.take 8)
    let rest := b.drop 8
    if nlen + 17 ≤ rest.length then
      let name := rest.take nlen
      let rest1 := rest.drop nlen
      let flag := rest1.getD 0 0
      let mode := be64dec ((rest1.drop 1).take 8)
      let clen := be64dec ((rest1.drop 9).take 8)
      let rest2 := rest1.drop 17
      if clen ≤ rest2.length then
        some (⟨name, flag, mode, rest2.take clen⟩, rest2.drop clen)
      else none
    else none
  else none

/-- Reads `k` entries off the stream. -/
def decodeEntries : Nat → Bytes → Option (List TarEnt)
  | 0, _ => some []
  | k + 1, b =>
    match decodeEntry b with
    | none => none
    | some (e, rest) =>
      match decodeEntries k rest with
      | none => none
      | some es => some (e :: es)

/-- Modelled from the spec: the gzip/tar reading side of `Restore`
(`gzip.NewReader` + `tar.Reader`), the exact decoder of `encodeArchive`. -/
def decodeArchive (b : Bytes) : Option (List TarEnt) :=
  if 8 ≤ b.length then decodeEntries (be64dec (b.take 8)) (b.drop 8)
  else none

/-- Size bounds under which the length-prefixed fields are faithful. -/
def entSmall (e : TarEnt) : Prop :=
  e.name.length < 2 ^ 64 ∧ e.typeflag < 256 ∧ e.mode < 2 ^ 64 ∧
    e.content.length < 2 ^ 64

instance (e : TarEnt) : Decidable (entSmall e) := by
  unfold entSmall
  infer_instance

theorem decodeEntry_encodeEntry (e : TarEnt) (rest : Bytes) (he : entSmall e) :
    decodeEntry (encodeEntry e ++ rest) = some (e, rest) := by
  obtain ⟨h1, _h2, h3, h4⟩ := he
  unfold decodeEntry encodeEntry
  have hlay : be64 e.name.length ++ e.name ++ [e.typeflag] ++ be64 e.mode ++
      be64 e.content.length ++ e.content ++ rest =
      be64 e.name.length ++ (e.name ++ ([e.typeflag] ++ (be64 e.mode ++
        (be64 e.content.length ++ (e.content ++ rest))))) := by
    simp [List.append_assoc]
  rw [hlay]
  rw [if_pos (by simp [be64]), List.take_left' (be64_length _), List.drop_left' (be64_length _),
    be64dec_be64 _ h1]
  rw [if_pos (by simp [be64])]
  rw [List.take_left' rfl, List.drop_left' rfl]
  have hd1 : ([e.typeflag] ++ (be64 e.mode ++ (be64 e.content.length ++ (e.content ++ rest)))).drop 1
      = be64 e.mode ++ (be64 e.content.length ++ (e.content ++ rest)) := rfl
  have hd9 : ([e.typeflag] ++ (be64 e.mode ++ (be64 e.content.length ++ (e.content ++ rest)))).drop 9
      = be64 e.content.length ++ (e.content ++ rest) := by
    have h9 : (9 : Nat) = 1 + 8 := rfl
    rw [h9, ← List.drop_drop, hd1, List.drop_left' (be64_length _)]
  have hd17 : ([e.typeflag] ++ (be64 e.mode ++ (be64 e.content.length ++ (e.content ++ rest)))).drop 17
      = e.content ++ rest := by
    have h17 : (17 : Nat) = 9 + 8 := rfl
    rw [h17, ← List.drop_drop, hd9, List.drop_left' (be64_length _)]
  simp only [hd1, hd9, hd17, List.take_left' (be64_length e.mode),
    List.take_left' (be64_length e.content.length), be64dec_be64 _ h3, be64dec_be64 _ h4]
  rw [if_pos (by simp)]
  rw [List.take_left' rfl, List.drop_left' rfl]
  simp [List.getD]

theorem decodeEntries_encode (ar : List TarEnt) (hs : ∀ e ∈ ar, entSmall e) :
    decodeEntries ar.length (ar.map encodeEntry).flatten = some ar := by
  induction ar with
  | nil => rfl
  | cons e es ih =>
    simp only [List.map_cons, List.flatten_cons, List.length_cons]
    unfold decodeEntries
    rw [decodeEntry_encodeEntry e _ (hs e (by simp))]
    simp only [ih (fun x hx => hs x (by simp [hx]))]

theorem decode_encode_archive (ar : List TarEnt) (hk : ar.length < 2 ^ 64)
    (hs : ∀ e ∈ ar, entSmall e) :
    decodeArchive (encodeArchive ar) = some ar := by
  unfold decodeArchive encodeArchive
  rw [if_pos (by simp [be64]), List.take_left' (be64_length _),
    List.drop_left' (be64_length _), be64dec_be64 _ hk]
  exact decodeEntries_encode ar hs

/-! ## Paths and the filesystem model

Paths are lists of byte segments.  Tar names are slash-joined segments
(`filepath.ToSlash` in `createTarGzip`); `Restore` computes each target by
`filepath.Join(destDir, hdr.Name)`, which appends the name and resolves
`.`/`..` lexically. -/

abbrev Path := List Bytes

/-- The segment `"."`. -/
def dotSeg : Bytes := [46]

/-- The segment `".."`. -/
def dotdotSeg : Bytes := [46, 46]

/-- Joins path segments with `'/'` (47), the shape of `hdr.Name`. -/
def joinSegs : Path → Bytes
  | [] => []
  | [s] => s
  | s :: rest => s ++ 47 :: joinSegs rest

/-- Splits a slash-separated byte string into segments. -/
def splitSegs : Bytes → Path
  | [] => [[]]
  | c :: rest =>
    match splitSegs rest with
    | [] => []
    | s :: ss => if c = 47 then [] :: s :: ss else (c :: s) :: ss

theorem splitSegs_ne_nil (b : Bytes) : splitSegs b ≠ [] := by
  induction b with
  | nil => simp [splitSegs]
  | cons c rest ih =>
    unfold splitSegs
    match h : splitSegs rest with
    | [] => exact absurd h ih
    | s :: ss =>
      by_cases hc : c = 47 <;> simp [hc]

theorem splitSegs_no_slash (s : Bytes) (h : 47 ∉ s) : splitSegs s = [s] := by
  induction s with
  | nil => rfl
  | cons c cs ih =>
    have hc : c ≠ 47 := fun hc => h (by simp [hc])
    unfold splitSegs
    rw [ih (fun hm => h (by simp [hm]))]
    simp [hc]

theorem splitSegs_append (s t : Bytes) (h : 47 ∉ s) :
    splitSegs (s ++ 47 :: t) = s :: splitSegs t := by
  induction s with
  | nil =>
    show splitSegs (47 :: t) = [] :: splitSegs t
    conv_lhs => unfold splitSegs
    match ht : splitSegs t with
    | [] => exact absurd ht (splitSegs_ne_nil t)
    | x :: xs => simp
  | cons c cs ih =>
    have hc : c ≠ 47 := fun hc => h (by simp [hc])
    have ih' := ih (fun hm => h (by simp [hm]))
    show splitSegs (c :: (cs ++ 47 :: t)) = _
    conv_lhs => unfold splitSegs
    rw [ih']
    simp [hc]

/-- A well-formed path segment: nonempty, slash-free, and not `.`/`..`. -/
def wfSeg (s : Bytes) : Prop :=
  s ≠ [] ∧ 47 ∉ s ∧ s ≠ dotSeg ∧ s ≠ dotdotSeg

instance (s : Bytes) : Decidable (wfSeg s) := by
  unfold wfSeg
  infer_instance

theorem splitSegs_joinSegs (p : Path) (hp : p ≠ [])
    (h : ∀ s ∈ p, s ≠ [] ∧ 47 ∉ s) : splitSegs (joinSegs p) = p := by
  induction p with
  | nil => exact absurd rfl hp
  | cons s rest ih =>
    match rest with
    | [] => exact splitSegs_no_slash s (h s (by simp)).2
    | s' :: rest' =>
      show splitSegs (s ++ 47 :: joinSegs (s' :: rest')) = _
      rw [splitSegs_append s _ (h s (by simp)).2,
        ih (by simp) (fun x hx => h x (by simp [hx]))]

/-- `filepath.Join(destDir, name)`: appends the name's segments to the
destination path and cleans the result lexically — empty and `.` segments
vanish, `..` pops the last segment. -/
def cleanJoin (dest : Path) (segs : Path) : Path :=
  segs.foldl (fun acc s =>
    if s = [] ∨ s = dotSeg then acc
    else if s = dotdotSeg then acc.dropLast
    else acc ++ [s]) dest

theorem cleanJoin_wf (dest : Path) (segs : Path) (h : ∀ s ∈ segs, wfSeg s) :
    cleanJoin dest segs = dest ++ segs := by
  induction segs generalizing dest with
  | nil => simp [cleanJoin]
  | cons s rest ih =>
    obtain ⟨h1, _h2, h3, h4⟩ := h s (by simp)
    show cleanJoin (if s = [] ∨ s = dotSeg then dest
      else if s = dotdotSeg then dest.dropLast else dest ++ [s]) rest = _
    rw [if_neg (by simp [h1, h3]), if_neg h4,
      ih (dest ++ [s]) (fun x hx => h x (by simp [hx]))]
    simp

/-- A filesystem node: directory or regular file, with permission bits. -/
inductive Node where
  | dir (mode : Nat)
  | file (mode : Nat) (content : Bytes)
  deriving DecidableEq, Repr

/-- The filesystem as an association list from absolute paths to nodes. -/
abbrev FS := List (Path × Node)

def findFS (fs : FS) (p : Path) : Option Node :=
  match fs with
  | [] => none
  | (q, n) :: rest => if q = p then some n else findFS rest p

def setFS (fs : FS) (p : Path) (n : Node) : FS :=
  match fs with
  | [] => [(p, n)]
  | (q, m) :: rest => if q = p then (q, n) :: rest else (q, m) :: setFS rest p n

theorem findFS_setFS_self (fs : FS) (p : Path) (n : Node) :
    findFS (setFS fs p n) p = some n := by
  induction fs with
  | nil => simp [setFS, findFS]
  | cons qm rest ih =>
    obtain ⟨q, m⟩ := qm
    by_cases hq : q = p <;> simp [setFS, findFS, hq, ih]

theorem findFS_setFS_ne (fs : FS) (p q : Path) (n : Node) (h : q ≠ p) :
    findFS (setFS fs p n) q = findFS fs q := by
  induction fs with
  | nil =>
    have h' : p ≠ q := fun hh => h hh.symm
    simp [setFS, findFS, h']
  | cons rm rest ih =>
    obtain ⟨r, m⟩ := rm
    show findFS (if r = p then (r, n) :: rest else (r, m) :: setFS rest p n) q = _
    by_cases hr : r = p
    · rw [if_pos hr]
      have hrq : r ≠ q := by
        rw [hr]
        exact fun hh => h hh.symm
      simp [findFS, hrq]
    · rw [if_neg hr]
      by_cases hrq : r = q <;> simp [findFS, hrq, ih]

/-- `os.MkdirAll(path, perm)` walked down the prefixes of the path:
existing directories are kept, an existing file is an error, missing
directories are created with `perm`. -/
def mkdirAllAux (base : Path) (rest : Path) (perm : Nat) (fs : FS) : Except Unit FS :=
  match rest with
  | [] => .ok fs
  | s :: rest' =>
    let q := base ++ [s]
    match findFS fs q with
    | some (.dir _) => mkdirAllAux q rest' perm fs
    | some (.file _ _) => .error ()
    | none => mkdirAllAux q rest' perm (setFS fs q (.dir perm))

def mkdirAll (p : Path) (perm : Nat) (fs : FS) : Except Unit FS :=
  mkdirAllAux [] p perm fs

/-- `os.OpenFile(target, O_CREATE|O_WRONLY|O_TRUNC, mode)` followed by
`io.Copy`: an existing file is truncated and rewritten (its mode is left
as it was), a directory is an error, a missing file is created with the
given mode. -/
def writeReg (p : Path) (perm : Nat) (content : Bytes) (fs : FS) : Except Unit FS :=
  match findFS fs p with
  | some (.file m _) => .ok (setFS fs p (.file m content))
  | some (.dir _) => .error ()
  | none => .ok (setFS fs p (.file perm content))

/-- One iteration of `Restore`'s extraction loop: compute
`target := filepath.Join(destDir, hdr.Name)` and switch on the type flag;
directories via `os.MkdirAll(target, 0o755)`, regular files via
`os.MkdirAll(filepath.Dir(target), 0o755)` and a create/truncate write
with `os.FileMode(hdr.Mode)`; other types are skipped. -/
def unpackEntry (destDir : Path) (fs : FS) (e : TarEnt) : Except Unit FS :=
  if e.typeflag = tDir then mkdirAll (cleanJoin destDir (splitSegs e.name)) 493 fs
  else if e.typeflag = tReg then
    match mkdirAll (cleanJoin destDir (splitSegs e.name)).dropLast 493 fs with
    | .error u => .error u
    | .ok fs1 => writeReg (cleanJoin destDir (splitSegs e.name)) e.mode e.content fs1
  else .ok fs

/-- The extraction loop over all archive entries; an error aborts the
loop. -/
def unpackLoop (destDir : Path) : List TarEnt → FS → Option Unit × FS
  | [], fs => (none, fs)
  | e :: es, fs =>
    match unpackEntry destDir fs e with
    | .error _ => (some (), fs)
    | .ok fs' => unpackLoop destDir es fs'

/-! ## The directory tree and the two services -/

/-- One entry of the source directory tree, as seen by the walk in
`createTarGzip`: relative path segments, kind, permission bits, content. -/
structure Ent where
  segs : Path
  isDir : Bool
  mode : Nat
  content : Bytes
  deriving DecidableEq, Repr

/-- The tar header+content `createTarGzip` emits for one walked entry:
`hdr.Name` is the slash-joined relative path, the type flag comes from the
file kind, `hdr.Mode` carries the permission bits. -/
def entryOf (e : Ent) : TarEnt :=
  ⟨joinSegs e.segs, if e.isDir then tDir else tReg, e.mode,
    if e.isDir then [] else e.content⟩

/-- `createTarGzip`: emits one tar entry per walked tree entry (the root
itself is skipped), in the walk's enumeration order. -/
def pack (D : List Ent) : List TarEnt := D.map entryOf

/-- `Backup(baseDir, outPath, passphrase)`, with the randomly drawn salt
and nonce and the current timestamp as explicit arguments: archive,
derive, seal, and write the container. -/
def Backup (D : List Ent) (salt nonce : Bytes) (ts : Nat) (pass : Bytes) : Bytes :=
  encodeContainer salt nonce ts (sealM (deriveKey pass salt) nonce (encodeArchive (pack D)))

/-- `Restore(inPath, destDir, passphrase)` on a world `fs`: decode the
container, derive the key from the stored salt, open the ciphertext with
the stored nonce, create `destDir`, then extract.  Returns the error (if
any) and the resulting filesystem. -/
def Restore (b : Bytes) (pass : Bytes) (destDir : Path) (fs : FS) : Option RErr × FS :=
  match decodeContainer b with
  | .error e => (some e, fs)
  | .ok (salt, nonce, ct) =>
    match openM (deriveKey pass salt) nonce ct with
    | none => (some .authFailure, fs)
    | some payload =>
      match mkdirAll destDir 448 fs with
      | .error _ => (some .ioError, fs)
      | .ok fs1 =>
        match decodeArchive payload with
        | none => (some .archiveCorrupt, fs1)
        | some entries =>
          match unpackLoop destDir entries fs1 with
          | (some _, fs2) => (some .ioError, fs2)
          | (none, fs2) => (none, fs2)

/-! ## Specification of `mkdirAll`, `writeReg` and the extraction loop -/

/-- The nonempty prefixes of `base ++ rest` extending `base`, in the order
`mkdirAllAux` visits them. -/
def prefixPaths (base : Path) : Path → List Path
  | [] => []
  | s :: rest => (base ++ [s]) :: prefixPaths (base ++ [s]) rest

theorem mem_prefixPaths {p base : Path} {rest : Path} :
    p ∈ prefixPaths base rest ↔ ∃ r, r ≠ [] ∧ r <+: rest ∧ p = base ++ r := by
  induction rest generalizing base with
  | nil =>
    simp only [prefixPaths, List.not_mem_nil, false_iff]
    rintro ⟨r, hr, hpre, _⟩
    exact hr (List.prefix_nil.mp hpre)
  | cons s rest' ih =>
    simp only [prefixPaths, List.mem_cons, ih]
    constructor
    · rintro (rfl | ⟨r, hr, hpre, rfl⟩)
      · exact ⟨[s], by simp, ⟨rest', rfl⟩, rfl⟩
      · exact ⟨s :: r, by simp, by simpa [List.cons_prefix_cons] using hpre, by simp⟩
    · rintro ⟨r, hr, hpre, rfl⟩
      rcases List.prefix_cons_iff.mp hpre with rfl | ⟨t, rfl, ht⟩
      · exact absurd rfl hr
      · match t, ht with
        | [], _ => exact Or.inl (by simp)
        | t₀ :: ts, ht => exact Or.inr ⟨t₀ :: ts, by simp, ht, by simp⟩

theorem length_lt_of_mem_prefixPaths {p base : Path} {rest : Path}
    (h : p ∈ prefixPaths base rest) : base.length < p.length := by
  obtain ⟨r, hr, _, rfl⟩ := mem_prefixPaths.mp h
  simp [List.length_append]
  exact List.length_pos.mpr hr

/-- What a successful `mkdirAllAux` does to the filesystem: it creates
exactly the missing visited prefixes, as directories with `perm`. -/
theorem mkdirAllAux_spec (rest : Path) (base : Path) (perm : Nat) (fs : FS)
    (h : ∀ q ∈ prefixPaths base rest, ∀ m c, findFS fs q ≠ some (.file m c)) :
    ∃ fs', mkdirAllAux base rest perm fs = .ok fs' ∧
      ∀ p, findFS fs' p =
        if p ∈ prefixPaths base rest ∧ findFS fs p = none
        then some (.dir perm) else findFS fs p := by
  induction rest generalizing base fs with
  | nil =>
    refine ⟨fs, rfl, fun p => ?_⟩
    rw [if_neg]
    simp [prefixPaths]
  | cons s rest' ih =>
    have hq0 : (base ++ [s]) ∈ prefixPaths base (s :: rest') := by
      simp [prefixPaths]
    match hfind : findFS fs (base ++ [s]) with
    | some (.file m c) => exact absurd hfind (h _ hq0 m c)
    | some (.dir mo) =>
      obtain ⟨fs', hok, hchar⟩ := ih (base ++ [s]) fs
        (fun q hqmem => h q (by simp [prefixPaths, hqmem]))
      refine ⟨fs', ?_, fun p => ?_⟩
      · show mkdirAllAux base (s :: rest') perm fs = .ok fs'
        unfold mkdirAllAux
        simp only [hfind]
        exact hok
      · rw [hchar p]
        by_cases hmem : p ∈ prefixPaths (base ++ [s]) rest'
        · simp only [hmem, true_and, prefixPaths, List.mem_cons, or_true]
        · rw [if_neg (by simp [hmem])]
          by_cases hp0 : p = base ++ [s]
          · rw [if_neg]
            rintro ⟨-, hnone⟩
            rw [hp0, hfind] at hnone
            exact Option.noConfusion hnone
          · rw [if_neg]
            rintro ⟨hin, -⟩
            rcases List.mem_cons.mp (by simpa [prefixPaths] using hin) with h1 | h2
            · exact hp0 h1
            · exact hmem h2
    | none =>
      have hnofile : ∀ q ∈ prefixPaths (base ++ [s]) rest', ∀ m c,
          findFS (setFS fs (base ++ [s]) (.dir perm)) q ≠ some (.file m c) := by
        intro q hqmem m c
        by_cases hq : q = base ++ [s]
        · rw [hq, findFS_setFS_self]
          intro hcontr
          simp at hcontr
        · rw [findFS_setFS_ne _ _ _ _ hq]
          exact h q (by simp [prefixPaths, hqmem]) m c
      obtain ⟨fs', hok, hchar⟩ := ih (base ++ [s]) (setFS fs (base ++ [s]) (.dir perm)) hnofile
      refine ⟨fs', ?_, fun p => ?_⟩
      · show mkdirAllAux base (s :: rest') perm fs = .ok fs'
        unfold mkdirAllAux
        simp only [hfind]
        exact hok
      · rw [hchar p]
        by_cases hp0 : p = base ++ [s]
        · subst hp0
          rw [if_neg, if_pos ⟨hq0, hfind⟩, findFS_setFS_self]
          rintro ⟨hin, -⟩
          exact absurd (length_lt_of_mem_prefixPaths hin) (by simp)
        · rw [findFS_setFS_ne _ _ _ _ hp0]
          by_cases hmem : p ∈ prefixPaths (base ++ [s]) rest'
          · simp only [hmem, true_and, prefixPaths, List.mem_cons, or_true]
          · rw [if_neg (by simp [hmem]), if_neg]
            rintro ⟨hin, -⟩
            rcases List.mem_cons.mp (by simpa [prefixPaths] using hin) with h1 | h2
            · exact hp0 h1
            · exact hmem h2

/-- `mkdirAll` is a no-op when every visited prefix already is a
directory. -/
theorem mkdirAllAux_noop (rest : Path) (base : Path) (perm : Nat) (fs : FS)
    (h : ∀ q ∈ prefixPaths base rest, ∃ mo, findFS fs q = some (.dir mo)) :
    mkdirAllAux base rest perm fs = .ok fs := by
  induction rest generalizing base with
  | nil => rfl
  | cons s rest' ih =>
    obtain ⟨mo, hmo⟩ := h (base ++ [s]) (by simp [prefixPaths])
    unfold mkdirAllAux
    simp only [hmo]
    exact ih (base ++ [s]) (fun q hq => h q (by simp [prefixPaths, hq]))

/-- A successful `mkdirAllAux` never changes an existing node. -/
theorem mkdirAllAux_preserves {rest base : Path} {perm : Nat} {fs fs' : FS}
    (hok : mkdirAllAux base rest perm fs = .ok fs')
    {p : Path} {v : Node} (hp : findFS fs p = some v) : findFS fs' p = some v := by
  induction rest generalizing base fs with
  | nil =>
    cases hok
    exact hp
  | cons s rest' ih =>
    unfold mkdirAllAux at hok
    match hfind : findFS fs (base ++ [s]) with
    | some (.file m c) =>
      simp only [hfind] at hok
      exact Except.noConfusion hok
    | some (.dir mo) =>
      simp only [hfind] at hok
      exact ih hok hp
    | none =>
      simp only [hfind] at hok
      refine ih hok ?_
      have hne : p ≠ base ++ [s] := by
        intro hcontr
        rw [hcontr, hfind] at hp
        exact Option.noConfusion hp
      rw [findFS_setFS_ne _ _ _ _ hne]
      exact hp

/-- `writeReg` touches only its target path. -/
theorem writeReg_preserves {t : Path} {perm : Nat} {content : Bytes} {fs fs' : FS}
    (hok : writeReg t perm content fs = .ok fs')
    {p : Path} (hne : p ≠ t) : findFS fs' p = findFS fs p := by
  unfold writeReg at hok
  match hfind : findFS fs t with
  | some (.file m c) =>
    rw [hfind] at hok
    cases hok
    exact findFS_setFS_ne _ _ _ _ hne
  | some (.dir mo) =>
    rw [hfind] at hok
    exact Except.noConfusion hok
  | none =>
    rw [hfind] at hok
    cases hok
    exact findFS_setFS_ne _ _ _ _ hne

/-- Splitting a prefix of an append: it is a prefix of the left part, or
extends it by a nonempty prefix of the right part. -/
theorem prefix_split {p a b : Path} (h : p <+: a ++ b) :
    p <+: a ∨ ∃ r, r ≠ [] ∧ r <+: b ∧ p = a ++ r := by
  by_cases hl : p.length ≤ a.length
  · left
    have hp := List.prefix_iff_eq_take.mp h
    rw [List.take_append_of_le_length hl] at hp
    rw [List.prefix_iff_eq_take]
    exact hp
  · right
    have hp := List.prefix_iff_eq_take.mp h
    rw [List.take_append_eq_append_take, List.take_of_length_le (by omega)] at hp
    refine ⟨b.take (p.length - a.length), ?_, List.take_prefix _ _, hp⟩
    have hlb := h.length_le
    simp only [List.length_append] at hlb
    simp only [ne_eq, List.take_eq_nil_iff]
    push_neg
    constructor
    · omega
    · intro hb
      subst hb
      simp at hlb
      omega

/-- A proper prefix is a prefix of `dropLast`. -/
theorem prefix_dropLast {r s : Path} (h : r <+: s) (hne : r ≠ s) :
    r <+: s.dropLast := by
  have hlen : r.length < s.length := by
    rcases Nat.lt_or_ge r.length s.length with h1 | h1
    · exact h1
    · exact absurd (List.IsPrefix.eq_of_length h (Nat.le_antisymm h.length_le h1)) hne
  have hr := List.prefix_iff_eq_take.mp h
  rw [List.prefix_iff_eq_take, List.dropLast_eq_take, List.take_take]
  rw [hr]
  congr 1
  simp
  omega

/-- A successful `unpackEntry` never changes an existing node at a path
other than its (regular-file) target. -/
theorem unpackEntry_preserves {dest : Path} {fs fs' : FS} {e : TarEnt}
    (hok : unpackEntry dest fs e = .ok fs')
    {p : Path} {v : Node} (hp : findFS fs p = some v)
    (hnt : ¬(e.typeflag = tReg ∧ cleanJoin dest (splitSegs e.name) = p)) :
    findFS fs' p = some v := by
  unfold unpackEntry at hok
  by_cases hd : e.typeflag = tDir
  · rw [if_pos hd] at hok
    exact mkdirAllAux_preserves hok hp
  · rw [if_neg hd] at hok
    by_cases hr : e.typeflag = tReg
    · rw [if_pos hr] at hok
      match hmk : mkdirAll (cleanJoin dest (splitSegs e.name)).dropLast 493 fs with
      | .error u =>
        rw [hmk] at hok
        exact Except.noConfusion hok
      | .ok fs1 =>
        rw [hmk] at hok
        have hne : p ≠ cleanJoin dest (splitSegs e.name) :=
          fun hcontr => hnt ⟨hr, hcontr.symm⟩
        rw [writeReg_preserves hok hne]
        exact mkdirAllAux_preserves hmk hp
    · rw [if_neg hr] at hok
      cases hok
      exact hp

/-- The extraction loop never changes an existing node at a path that no
regular-file entry targets, whether or not it aborts with an error. -/
theorem unpackLoop_preserves (dest : Path) (l : List TarEnt) (fs : FS)
    (p : Path) (v : Node) (hp : findFS fs p = some v)
    (hnt : ∀ e ∈ l, ¬(e.typeflag = tReg ∧ cleanJoin dest (splitSegs e.name) = p)) :
    findFS (unpackLoop dest l fs).2 p = some v := by
  induction l generalizing fs with
  | nil => exact hp
  | cons e es ih =>
    show findFS (match unpackEntry dest fs e with
      | .error _ => (some (), fs)
      | .ok fs1 => unpackLoop dest es fs1).2 p = some v
    match hu : unpackEntry dest fs e with
    | .error u => exact hp
    | .ok fs1 =>
      exact ih fs1 (unpackEntry_preserves hu hp (hnt e (by simp)))
        (fun x hx => hnt x (by simp [hx]))

/-- Success of the loop on a cons decomposes into entry success plus loop
success on the tail. -/
theorem unpackLoop_cons_ok {dest : Path} {e : TarEnt} {es : List TarEnt} {fs : FS}
    (h : (unpackLoop dest (e :: es) fs).1 = none) :
    ∃ fs1, unpackEntry dest fs e = .ok fs1 ∧ unpackLoop dest (e :: es) fs = unpackLoop dest es fs1 := by
  revert h
  show ((match unpackEntry dest fs e with
    | .error _ => (some (), fs)
    | .ok fs1 => unpackLoop dest es fs1) : Option Unit × FS).1 = none → _
  match hu : unpackEntry dest fs e with
  | .error u =>
    intro hcontr
    simp at hcontr
  | .ok fs1 =>
    intro _
    refine ⟨fs1, rfl, ?_⟩
    show (match unpackEntry dest fs e with
      | .error _ => (some (), fs)
      | .ok fs1 => unpackLoop dest es fs1) = unpackLoop dest es fs1
    rw [hu]

/-! ## Well-formed trees and the expected restored node -/

/-- Ancestor closure, as `filepath.Walk` guarantees: every proper nonempty
prefix of an entry path is the path of a directory entry of the tree. -/
def ancClosed (D : List Ent) : Prop :=
  ∀ e ∈ D, ∀ i ∈ List.range e.segs.length, i ≠ 0 →
    ∃ d ∈ D, d.isDir = true ∧ d.segs = e.segs.take i

instance (D : List Ent) : Decidable (ancClosed D) := by
  unfold ancClosed
  infer_instance

/-- A well-formed directory tree: nonempty relative paths of well-formed
segments, no duplicate paths, ancestors present. -/
def wfTree (D : List Ent) : Prop :=
  (∀ e ∈ D, e.segs ≠ [] ∧ ∀ s ∈ e.segs, wfSeg s) ∧
    (D.map Ent.segs).Nodup ∧ ancClosed D

instance (D : List Ent) : Decidable (wfTree D) := by
  unfold wfTree
  infer_instance

theorem ancClosed_prefix {D : List Ent} (hanc : ancClosed D) {e : Ent}
    (he : e ∈ D) {r : Path} (hr : r ≠ []) (hpre : r <+: e.segs)
    (hne : r ≠ e.segs) : ∃ d ∈ D, d.isDir = true ∧ d.segs = r := by
  have hlt : r.length < e.segs.length := by
    rcases Nat.lt_or_ge r.length e.segs.length with h1 | h1
    · exact h1
    · exact absurd (List.IsPrefix.eq_of_length hpre
        (Nat.le_antisymm hpre.length_le h1)) hne
  have h0 : r.length ≠ 0 := by
    simp [List.length_eq_zero, hr]
  obtain ⟨d, hd, hdir, hseg⟩ := hanc e he r.length (by simp [List.mem_range, hlt]) h0
  refine ⟨d, hd, hdir, ?_⟩
  rw [hseg, ← List.prefix_iff_eq_take.mp hpre]

/-- The node the extraction produces at relative path `r`: the file
recorded in `D` if a regular entry has exactly that path, otherwise a
directory with the fixed mode `0o755`. -/
def nodeFor (D : List Ent) (r : Path) : Node :=
  match D.find? (fun e => decide (e.segs = r) && !e.isDir) with
  | some e => .file e.mode e.content
  | none => .dir 493

theorem nodeFor_cases (D : List Ent) (r : Path) :
    (∃ e ∈ D, e.segs = r ∧ e.isDir = false ∧ nodeFor D r = .file e.mode e.content) ∨
      (nodeFor D r = .dir 493 ∧ ∀ e ∈ D, e.segs = r → e.isDir = true) := by
  unfold nodeFor
  match hf : D.find? (fun e => decide (e.segs = r) && !e.isDir) with
  | some e =>
    left
    have hp := List.find?_some hf
    simp only [Bool.and_eq_true, decide_eq_true_eq, Bool.not_eq_true'] at hp
    exact ⟨e, List.mem_of_find?_eq_some hf, hp.1, hp.2, by rw [hf]⟩
  | none =>
    right
    refine ⟨by rw [hf], fun e he hseg => ?_⟩
    have hx := List.find?_eq_none.mp hf e he
    simp only [Bool.and_eq_true, decide_eq_true_eq, Bool.not_eq_true', not_and] at hx
    have := hx hseg
    simp [this]

theorem nodeFor_dir {D : List Ent} {r : Path}
    (h : ∀ e ∈ D, e.segs = r → e.isDir = true) : nodeFor D r = .dir 493 := by
  rcases nodeFor_cases D r with ⟨e, he, hseg, hdir, _⟩ | ⟨hd, _⟩
  · rw [h e he hseg] at hdir
    exact Bool.noConfusion hdir
  · exact hd

theorem nodeFor_file {D : List Ent} (hnodup : (D.map Ent.segs).Nodup)
    {e : Ent} (he : e ∈ D) (hdir : e.isDir = false) :
    nodeFor D e.segs = .file e.mode e.content := by
  rcases nodeFor_cases D e.segs with ⟨e', he', hseg, _, hval⟩ | ⟨_, hall⟩
  · have : e' = e := List.inj_on_of_nodup_map hnodup he' he hseg
    rw [hval, this]
  · rw [hall e he rfl] at hdir
    exact Bool.noConfusion hdir

/-- In a well-formed tree, a nonempty prefix of a directory-like entry
path can only be a directory path. -/
theorem wf_prefix_isDir {D : List Ent} (hwf : wfTree D) {e : Ent} (he : e ∈ D)
    {r : Path} (hr : r ≠ []) (hpre : r <+: e.segs)
    (heq : r = e.segs → e.isDir = true) :
    ∀ e' ∈ D, e'.segs = r → e'.isDir = true := by
  obtain ⟨_, hnodup, hanc⟩ := hwf
  intro e' he' hseg
  by_cases hcase : r = e.segs
  · have : e' = e := List.inj_on_of_nodup_map hnodup he' he (by rw [hseg, hcase])
    rw [this]
    exact heq hcase
  · obtain ⟨d, hd, hdir, hdseg⟩ := ancClosed_prefix hanc he hr hpre hcase
    have : e' = d := List.inj_on_of_nodup_map hnodup he' hd (by rw [hseg, hdseg])
    rw [this]
    exact hdir

/-! ## The extraction-loop invariant -/

theorem mem_prefixPaths_nil {p x : Path} :
    p ∈ prefixPaths [] x ↔ p ≠ [] ∧ p <+: x := by
  rw [mem_prefixPaths]
  constructor
  · rintro ⟨r, hr, hrx, rfl⟩
    simpa using ⟨hr, hrx⟩
  · rintro ⟨hp, hpx⟩
    exact ⟨p, hp, hpx, by simp⟩

theorem mem_prefixPaths_append {dest r t : Path} (hr : r ≠ []) :
    dest ++ r ∈ prefixPaths [] (dest ++ t) ↔ r <+: t := by
  rw [mem_prefixPaths_nil]
  constructor
  · rintro ⟨-, hpre⟩
    exact (List.prefix_append_right_inj dest).mp hpre
  · intro h
    exact ⟨by simp [hr], (List.prefix_append_right_inj dest).mpr h⟩

theorem not_under_of_prefix_dest {q dest : Path} (hq : q <+: dest) :
    ∀ r, r ≠ [] → q ≠ dest ++ r := by
  intro r hr hcontr
  have h1 := hq.length_le
  have h3 : 0 < r.length := List.length_pos.mpr hr
  rw [hcontr] at h1
  simp only [List.length_append] at h1
  omega

/-- The loop invariant after processing the entries `P` of the tree `D`:
outside the destination nothing changed; below it exactly the nonempty
prefixes of processed entry paths exist, each carrying its expected
node. -/
def Inv (D : List Ent) (dest : Path) (fs0 : FS) (P : List Ent) (fs : FS) : Prop :=
  (∀ p : Path, (∀ r, r ≠ [] → p ≠ dest ++ r) → findFS fs p = findFS fs0 p) ∧
    (∀ r, r ≠ [] → (∃ e ∈ P, r <+: e.segs) →
      findFS fs (dest ++ r) = some (nodeFor D r)) ∧
    (∀ r, r ≠ [] → findFS fs (dest ++ r) ≠ none → ∃ e ∈ P, r <+: e.segs)

theorem Inv_dest_dirs {D : List Ent} {dest : Path} {fs0 : FS} {P : List Ent} {fs : FS}
    (hdest : ∀ q, q ≠ [] → q <+: dest → ∃ mo, findFS fs0 q = some (.dir mo))
    (hinv : Inv D dest fs0 P fs) :
    ∀ q, q ≠ [] → q <+: dest → ∃ mo, findFS fs q = some (.dir mo) := by
  intro q hq hqd
  obtain ⟨mo, hmo⟩ := hdest q hq hqd
  refine ⟨mo, ?_⟩
  rw [hinv.1 q (not_under_of_prefix_dest hqd)]
  exact hmo

/-- Under the invariant no visited prefix of a well-formed target is an
existing file, so `mkdirAll` succeeds. -/
theorem no_file_below {D : List Ent} {dest : Path} {fs0 : FS} {P : List Ent} {fs : FS}
    (hwf : wfTree D)
    (hdest : ∀ q, q ≠ [] → q <+: dest → ∃ mo, findFS fs0 q = some (.dir mo))
    (hinv : Inv D dest fs0 P fs) {e : Ent} (he : e ∈ D) {t : Path}
    (ht : ∀ r, r ≠ [] → r <+: t → r <+: e.segs ∧ (r = e.segs → e.isDir = true)) :
    ∀ q ∈ prefixPaths [] (dest ++ t), ∀ m c, findFS fs q ≠ some (.file m c) := by
  intro q hq m c
  obtain ⟨hqne, hqpre⟩ := mem_prefixPaths_nil.mp hq
  rcases prefix_split hqpre with hqd | ⟨r, hr, hrt, rfl⟩
  · obtain ⟨mo, hmo⟩ := Inv_dest_dirs hdest hinv q hqne hqd
    rw [hmo]
    intro hcontr
    simp at hcontr
  · obtain ⟨hre, hrq⟩ := ht r hr hrt
    obtain ⟨ha, hb, hc⟩ := hinv
    match hfind : findFS fs (dest ++ r) with
    | none =>
      intro hcontr
      exact Option.noConfusion hcontr
    | some v =>
      have hwit := hc r hr (by rw [hfind]; simp)
      have hval := hb r hr hwit
      rw [hfind] at hval
      have hdirn : nodeFor D r = .dir 493 :=
        nodeFor_dir (wf_prefix_isDir hwf he hr hre hrq)
      rw [hdirn] at hval
      rw [hval]
      intro hcontr
      simp at hcontr

theorem entry_target (dest : Path) (e : Ent) (hne : e.segs ≠ [])
    (hsegs : ∀ s ∈ e.segs, wfSeg s) :
    cleanJoin dest (splitSegs (entryOf e).name) = dest ++ e.segs := by
  show cleanJoin dest (splitSegs (joinSegs e.segs)) = _
  rw [splitSegs_joinSegs e.segs hne (fun s hs => ⟨(hsegs s hs).1, (hsegs s hs).2.1⟩),
    cleanJoin_wf dest _ hsegs]

/-- Processing one packed entry succeeds and extends the invariant. -/
theorem unpackEntry_step {D : List Ent} {dest : Path} {fs0 : FS} {P : List Ent}
    {fs : FS} {e : Ent} (hwf : wfTree D)
    (hdest : ∀ q, q ≠ [] → q <+: dest → ∃ mo, findFS fs0 q = some (.dir mo))
    (heD : e ∈ D) (hP : ∀ x ∈ P, x ∈ D)
    (hnotP : e.segs ∉ P.map Ent.segs)
    (hinv : Inv D dest fs0 P fs) :
    ∃ fs', unpackEntry dest fs (entryOf e) = .ok fs' ∧ Inv D dest fs0 (P ++ [e]) fs' := by
  obtain ⟨hwf1, hnodup, hanc⟩ := hwf
  obtain ⟨hsne, hsegs⟩ := hwf1 e heD
  have htarget := entry_target dest e hsne hsegs
  have hchain := Inv_dest_dirs hdest hinv
  obtain ⟨ha, hb, hc⟩ := hinv
  by_cases hdir : e.isDir = true
  · -- directory entry: a single mkdirAll
    have hflag : (entryOf e).typeflag = tDir := by simp [entryOf, hdir]
    have htg : ∀ r, r ≠ [] → r <+: e.segs →
        r <+: e.segs ∧ (r = e.segs → e.isDir = true) :=
      fun r hr hrt => ⟨hrt, fun _ => hdir⟩
    have hnof := no_file_below ⟨hwf1, hnodup, hanc⟩ hdest ⟨ha, hb, hc⟩ heD htg
    obtain ⟨fs', hok, hchar⟩ := mkdirAllAux_spec (dest ++ e.segs) [] 493 fs hnof
    refine ⟨fs', ?_, ?_, ?_, ?_⟩
    · unfold unpackEntry
      rw [if_pos hflag, htarget]
      exact hok
    · -- (a) outside the destination
      intro p hp
      rw [hchar p, if_neg ?_]
      · exact ha p hp
      · rintro ⟨hin, hnone⟩
        obtain ⟨hpne, hppre⟩ := mem_prefixPaths_nil.mp hin
        rcases prefix_split hppre with hpd | ⟨r, hr, -, rfl⟩
        · obtain ⟨mo, hmo⟩ := hchain p hpne hpd
          rw [hmo] at hnone
          exact Option.noConfusion hnone
        · exact hp r hr rfl
    · -- (b) processed prefixes carry their nodes
      rintro r hr ⟨e2, he2, hre2⟩
      rw [hchar (dest ++ r)]
      by_cases hcond : dest ++ r ∈ prefixPaths [] (dest ++ e.segs) ∧
          findFS fs (dest ++ r) = none
      · rw [if_pos hcond]
        have hrpre : r <+: e.segs := (mem_prefixPaths_append hr).mp hcond.1
        rw [nodeFor_dir (wf_prefix_isDir ⟨hwf1, hnodup, hanc⟩ heD hr hrpre (fun _ => hdir))]
      · rw [if_neg hcond]
        rcases List.mem_append.mp he2 with hP2 | hsing
        · exact hb r hr ⟨e2, hP2, hre2⟩
        · have he2e : e2 = e := by simpa using hsing
          rw [he2e] at hre2
          have hmem : dest ++ r ∈ prefixPaths [] (dest ++ e.segs) :=
            (mem_prefixPaths_append hr).mpr hre2
          have hnn : findFS fs (dest ++ r) ≠ none := fun hno => hcond ⟨hmem, hno⟩
          obtain ⟨e3, he3, hre3⟩ := hc r hr hnn
          exact hb r hr ⟨e3, he3, hre3⟩
    · -- (c) nothing unexpected below the destination
      intro r hr hnn
      rw [hchar (dest ++ r)] at hnn
      by_cases hcond : dest ++ r ∈ prefixPaths [] (dest ++ e.segs) ∧
          findFS fs (dest ++ r) = none
      · exact ⟨e, by simp, (mem_prefixPaths_append hr).mp hcond.1⟩
      · rw [if_neg hcond] at hnn
        obtain ⟨e3, he3, hre3⟩ := hc r hr hnn
        exact ⟨e3, by simp [he3], hre3⟩
  · -- regular-file entry: mkdirAll on the parent, then the write
    have hdirF : e.isDir = false := by simpa using hdir
    have hflagD : ¬((entryOf e).typeflag = tDir) := by
      simp [entryOf, hdirF, tReg, tDir]
    have hflagR : (entryOf e).typeflag = tReg := by simp [entryOf, hdirF]
    have hmode : (entryOf e).mode = e.mode := rfl
    have hcont : (entryOf e).content = e.content := by simp [entryOf, hdirF]
    have htg : ∀ r, r ≠ [] → r <+: e.segs.dropLast →
        r <+: e.segs ∧ (r = e.segs → e.isDir = true) := by
      intro r hr hrt
      refine ⟨hrt.trans (List.dropLast_prefix _), fun hreq => ?_⟩
      exfalso
      have h1 := hrt.length_le
      rw [hreq] at h1
      simp only [List.length_dropLast] at h1
      have h0 : 0 < e.segs.length := List.length_pos.mpr hsne
      omega
    have hnof := no_file_below ⟨hwf1, hnodup, hanc⟩ hdest ⟨ha, hb, hc⟩ heD htg
    obtain ⟨fs1, hok1, hchar1⟩ := mkdirAllAux_spec (dest ++ e.segs.dropLast) [] 493 fs hnof
    have htabs : findFS fs (dest ++ e.segs) = none := by
      match hfind : findFS fs (dest ++ e.segs) with
      | none => rfl
      | some v =>
        exfalso
        obtain ⟨e2, he2, hpre2⟩ := hc e.segs hsne (by rw [hfind]; simp)
        by_cases hcase : e.segs = e2.segs
        · exact hnotP (by rw [hcase]; exact List.mem_map_of_mem _ he2)
        · obtain ⟨d, hd, hddir, hdseg⟩ := ancClosed_prefix hanc (hP e2 he2) hsne hpre2 hcase
          have hde : d = e := List.inj_on_of_nodup_map hnodup hd heD hdseg
          rw [hde, hdirF] at hddir
          exact Bool.noConfusion hddir
    have htabs1 : findFS fs1 (dest ++ e.segs) = none := by
      rw [hchar1 (dest ++ e.segs), if_neg ?_, htabs]
      rintro ⟨hin, -⟩
      have h1 := (mem_prefixPaths_nil.mp hin).2.length_le
      simp only [List.length_append, List.length_dropLast] at h1
      have h0 : 0 < e.segs.length := List.length_pos.mpr hsne
      omega
    refine ⟨setFS fs1 (dest ++ e.segs) (.file e.mode e.content), ?_, ?_, ?_, ?_⟩
    · unfold unpackEntry
      rw [if_neg hflagD, if_pos hflagR, htarget,
        List.dropLast_append_of_ne_nil dest hsne,
        show mkdirAll (dest ++ e.segs.dropLast) 493 fs = .ok fs1 from hok1]
      show writeReg (dest ++ e.segs) (entryOf e).mode (entryOf e).content fs1 =
        Except.ok (setFS fs1 (dest ++ e.segs) (.file e.mode e.content))
      unfold writeReg
      rw [htabs1, hmode, hcont]
    · -- (a)
      intro p hp
      have hpt : p ≠ dest ++ e.segs := hp e.segs hsne
      rw [findFS_setFS_ne _ _ _ _ hpt, hchar1 p, if_neg ?_]
      · exact ha p hp
      · rintro ⟨hin, hnone⟩
        obtain ⟨hpne, hppre⟩ := mem_prefixPaths_nil.mp hin
        rcases prefix_split hppre with hpd | ⟨r, hr, -, rfl⟩
        · obtain ⟨mo, hmo⟩ := hchain p hpne hpd
          rw [hmo] at hnone
          exact Option.noConfusion hnone
        · exact hp r hr rfl
    · -- (b)
      rintro r hr ⟨e2, he2, hre2⟩
      by_cases hrt : r = e.segs
      · subst hrt
        rw [findFS_setFS_self, nodeFor_file hnodup heD hdirF]
      · have hne2 : dest ++ r ≠ dest ++ e.segs :=
          fun h => hrt (List.append_cancel_left h)
        rw [findFS_setFS_ne _ _ _ _ hne2, hchar1 (dest ++ r)]
        rcases List.mem_append.mp he2 with hP2 | hsing
        · have hval := hb r hr ⟨e2, hP2, hre2⟩
          rw [if_neg ?_]
          · exact hval
          · rintro ⟨-, hnone⟩
            rw [hval] at hnone
            exact Option.noConfusion hnone
        · have he2e : e2 = e := by simpa using hsing
          rw [he2e] at hre2
          have hrdl : r <+: e.segs.dropLast := prefix_dropLast hre2 hrt
          by_cases hcond : dest ++ r ∈ prefixPaths [] (dest ++ e.segs.dropLast) ∧
              findFS fs (dest ++ r) = none
          · rw [if_pos hcond]
            rw [nodeFor_dir (wf_prefix_isDir ⟨hwf1, hnodup, hanc⟩ heD hr hre2
              (fun hcontr => absurd hcontr hrt))]
          · rw [if_neg hcond]
            have hmem : dest ++ r ∈ prefixPaths [] (dest ++ e.segs.dropLast) :=
              (mem_prefixPaths_append hr).mpr hrdl
            have hnn : findFS fs (dest ++ r) ≠ none := fun hno => hcond ⟨hmem, hno⟩
            obtain ⟨e3, he3, hre3⟩ := hc r hr hnn
            exact hb r hr ⟨e3, he3, hre3⟩
    · -- (c)
      intro r hr hnn
      by_cases hrt : r = e.segs
      · exact ⟨e, by simp, by rw [hrt]⟩
      · have hne2 : dest ++ r ≠ dest ++ e.segs :=
          fun h => hrt (List.append_cancel_left h)
        rw [findFS_setFS_ne _ _ _ _ hne2, hchar1 (dest ++ r)] at hnn
        by_cases hcond : dest ++ r ∈ prefixPaths [] (dest ++ e.segs.dropLast) ∧
            findFS fs (dest ++ r) = none
        · have hrdl : r <+: e.segs.dropLast := (mem_prefixPaths_append hr).mp hcond.1
          exact ⟨e, by simp, hrdl.trans (List.dropLast_prefix _)⟩
        · rw [if_neg hcond] at hnn
          obtain ⟨e3, he3, hre3⟩ := hc r hr hnn
          exact ⟨e3, by simp [he3], hre3⟩

/-- Extracting a packed well-formed entry list succeeds and establishes
the invariant for all processed entries. -/
theorem unpackLoop_inv (D : List Ent) (dest : Path) (fs0 : FS)
    (hwf : wfTree D)
    (hdest : ∀ q, q ≠ [] → q <+: dest → ∃ mo, findFS fs0 q = some (.dir mo)) :
    ∀ (l P : List Ent) (fs : FS), (∀ x ∈ P ++ l, x ∈ D) →
      ((P ++ l).map Ent.segs).Nodup → Inv D dest fs0 P fs →
      ∃ fs1, unpackLoop dest (pack l) fs = (none, fs1) ∧ Inv D dest fs0 (P ++ l) fs1 := by
  intro l
  induction l with
  | nil =>
    intro P fs hmem hnodup hinv
    exact ⟨fs, rfl, by simpa using hinv⟩
  | cons e l2 ih =>
    intro P fs hmem hnodup hinv
    have hnotP : e.segs ∉ P.map Ent.segs := by
      rw [List.map_append] at hnodup
      have hdisj := List.disjoint_of_nodup_append hnodup
      intro hcontr
      exact hdisj hcontr (by simp)
    obtain ⟨fs', hok, hinv'⟩ := unpackEntry_step hwf hdest (hmem e (by simp))
      (fun x hx => hmem x (by simp [hx])) hnotP hinv
    have hred : unpackLoop dest (pack (e :: l2)) fs = unpackLoop dest (pack l2) fs' := by
      show (match unpackEntry dest fs (entryOf e) with
        | .error _ => (some (), fs)
        | .ok fs1 => unpackLoop dest (pack l2) fs1) = _
      rw [hok]
    obtain ⟨fs1, hloop, hinvf⟩ := ih (P ++ [e]) fs'
      (by intro x hx; apply hmem; simpa using hx)
      (by
        have hperm : (P ++ [e]) ++ l2 = P ++ e :: l2 := by simp
        rw [hperm]
        exact hnodup)
      hinv'
    refine ⟨fs1, by rw [hred]; exact hloop, ?_⟩
    have hperm : (P ++ [e]) ++ l2 = P ++ e :: l2 := by simp
    rw [hperm] at hinvf
    exact hinvf

/-- Extracting `pack D` into an empty destination succeeds and produces
exactly the tree described by `Inv D dest fs0 D`. -/
theorem unpack_pack (D : List Ent) (dest : Path) (fs0 : FS)
    (hwf : wfTree D)
    (hdest : ∀ q, q ≠ [] → q <+: dest → ∃ mo, findFS fs0 q = some (.dir mo))
    (hempty : ∀ r, r ≠ [] → findFS fs0 (dest ++ r) = none) :
    ∃ fs1, unpackLoop dest (pack D) fs0 = (none, fs1) ∧ Inv D dest fs0 D fs1 := by
  have hinv0 : Inv D dest fs0 [] fs0 := by
    refine ⟨fun p hp => rfl, ?_, ?_⟩
    · rintro r hr ⟨e, he, -⟩
      exact absurd he (List.not_mem_nil e)
    · intro r hr hnn
      exact absurd (hempty r hr) hnn
  obtain ⟨fs1, h1, h2⟩ := unpackLoop_inv D dest fs0 hwf hdest D [] fs0
    (by simp) (by simpa using hwf.2.1) hinv0
  exact ⟨fs1, h1, by simpa using h2⟩

/-- The full pipeline: restoring a backup of a well-formed tree into an
empty destination succeeds, and the result satisfies the invariant. -/
theorem Restore_Backup (D : List Ent) (dest : Path) (fs0 : FS)
    (salt nonce : Bytes) (ts : Nat) (pass : Bytes)
    (hs : salt.length = saltLen) (hn : nonce.length = nonceLen)
    (hwf : wfTree D) (hkD : D.length < 2 ^ 64)
    (hsmall : ∀ e ∈ pack D, entSmall e)
    (hct : 2 * (encodeArchive (pack D)).length + 56 < 2 ^ 64)
    (hdest : ∀ q, q ≠ [] → q <+: dest → ∃ mo, findFS fs0 q = some (.dir mo))
    (hempty : ∀ r, r ≠ [] → findFS fs0 (dest ++ r) = none) :
    ∃ fs1, Restore (Backup D salt nonce ts pass) pass dest fs0 = (none, fs1) ∧
      Inv D dest fs0 D fs1 := by
  have hctlen : (sealM (deriveKey pass salt) nonce (encodeArchive (pack D))).length < 2 ^ 64 := by
    rw [sealM_length, deriveKey_length, hn]
    simp only [nonceLen]
    omega
  have h1 : decodeContainer (Backup D salt nonce ts pass) =
      .ok (salt, nonce, sealM (deriveKey pass salt) nonce (encodeArchive (pack D))) := by
    show decodeContainer (encodeContainer salt nonce ts
      (sealM (deriveKey pass salt) nonce (encodeArchive (pack D)))) = _
    exact decode_encode _ _ _ _ hs hn hctlen
  have h2 := open_seal (deriveKey pass salt) nonce (encodeArchive (pack D))
  have h3 : mkdirAll dest 448 fs0 = .ok fs0 := by
    apply mkdirAllAux_noop
    intro q hq
    obtain ⟨hqne, hqpre⟩ := mem_prefixPaths_nil.mp hq
    exact hdest q hqne hqpre
  have h4 := decode_encode_archive (pack D) (by simpa [pack] using hkD) hsmall
  obtain ⟨fs1, hl, hinv⟩ := unpack_pack D dest fs0 hwf hdest hempty
  refine ⟨fs1, ?_, hinv⟩
  unfold Restore
  simp only [h1, h2, h3, h4, hl]

/-! ## Layout facts and corollaries used by the claim theorems -/

theorem encode_take45 (salt nonce : Bytes) (ts : Nat) (ct : Bytes)
    (hs : salt.length = saltLen) (hn : nonce.length = nonceLen) :
    (encodeContainer salt nonce ts ct).take 45 =
      magicBytes ++ [versionByte] ++ salt ++ nonce := by
  rw [encodeContainer_eq,
    show magicBytes ++ [versionByte] ++ salt ++ nonce ++ be64 ts ++ be64 ct.length ++ ct =
      (magicBytes ++ [versionByte] ++ salt ++ nonce) ++
        (be64 ts ++ (be64 ct.length ++ ct)) by simp [List.append_assoc]]
  exact List.take_left' (by simp [magicBytes, versionByte, hs, hn, saltLen, nonceLen])

theorem encode_drop53 (salt nonce : Bytes) (ts : Nat) (ct : Bytes)
    (hs : salt.length = saltLen) (hn : nonce.length = nonceLen) :
    (encodeContainer salt nonce ts ct).drop 53 = be64 ct.length ++ ct := by
  rw [encodeContainer_eq,
    show magicBytes ++ [versionByte] ++ salt ++ nonce ++ be64 ts ++ be64 ct.length ++ ct =
      (magicBytes ++ [versionByte] ++ salt ++ nonce ++ be64 ts) ++
        (be64 ct.length ++ ct) by simp [List.append_assoc]]
  exact List.drop_left' (by simp [magicBytes, versionByte, hs, hn, saltLen, nonceLen, be64])

theorem encode_take4 (salt nonce : Bytes) (ts : Nat) (ct : Bytes) :
    (encodeContainer salt nonce ts ct).take 4 = magicBytes := by
  rw [encodeContainer_eq]
  simp [magicBytes, versionByte]

theorem encode_getD4 (salt nonce : Bytes) (ts : Nat) (ct : Bytes) :
    (encodeContainer salt nonce ts ct).getD 4 0 = versionByte := by
  rw [encodeContainer_eq]
  simp [magicBytes]

/-- Truncating a valid container to any length short of the full file is
rejected by the decoder. -/
theorem decode_truncated (salt nonce : Bytes) (ts : Nat) (ct : Bytes) (k : Nat)
    (hs : salt.length = saltLen) (hn : nonce.length = nonceLen)
    (hct : ct.length < 2 ^ 64) (hk : k < headerLen + ct.length) :
    ∃ err, decodeContainer ((encodeContainer salt nonce ts ct).take k) = .error err := by
  have hblen := encodeContainer_length salt nonce ts ct hs hn
  have hlen : ((encodeContainer salt nonce ts ct).take k).length = k := by
    rw [List.length_take]
    omega
  by_cases hk61 : k < headerLen
  · refine ⟨.badFormat, ?_⟩
    unfold decodeContainer
    rw [if_pos (by omega)]
  · have hk61' : headerLen ≤ k := Nat.le_of_not_lt hk61
    have htake4 : ((encodeContainer salt nonce ts ct).take k).take 4 =
        magicBytes := by
      rw [List.take_take, min_eq_left (by simp [headerLen, saltLen, nonceLen] at hk61'; omega)]
      exact encode_take4 salt nonce ts ct
    have hget4 : ((encodeContainer salt nonce ts ct).take k).getD 4 0 = versionByte := by
      rw [List.getD_eq_getElem?_getD, List.getElem?_take_of_lt
        (by simp [headerLen, saltLen, nonceLen] at hk61'; omega),
        ← List.getD_eq_getElem?_getD]
      exact encode_getD4 salt nonce ts ct
    have hdrop53 : (((encodeContainer salt nonce ts ct).take k).drop 53).take 8 =
        be64 ct.length := by
      rw [List.drop_take, List.take_take, min_eq_left
        (by simp [headerLen, saltLen, nonceLen] at hk61'; omega)]
      rw [encode_drop53 salt nonce ts ct hs hn]
      exact List.take_left' (be64_length _)
    refine ⟨.badFormat, ?_⟩
    unfold decodeContainer
    rw [if_neg (by omega), if_neg (by simp [htake4]),
      if_neg (by simp only [hget4, ne_eq, not_not]), if_pos ?_]
    rw [hdrop53, be64dec_be64 _ hct, hlen]
    simp only [headerLen, saltLen, nonceLen] at hk61' hk ⊢
    omega

/-- The expected node at each entry path of a restored well-formed tree. -/
theorem Inv_node {D : List Ent} {dest : Path} {fs0 fs1 : FS}
    (hwf : wfTree D) (hinv : Inv D dest fs0 D fs1) :
    ∀ e ∈ D, findFS fs1 (dest ++ e.segs) =
      some (if e.isDir = true then Node.dir 493 else Node.file e.mode e.content) := by
  intro e he
  obtain ⟨hwf1, hnodup, hanc⟩ := hwf
  have hsne := (hwf1 e he).1
  rw [hinv.2.1 e.segs hsne ⟨e, he, List.prefix_rfl⟩]
  by_cases hdir : e.isDir = true
  · rw [if_pos hdir, nodeFor_dir]
    intro e2 he2 hseg
    rw [List.inj_on_of_nodup_map hnodup he2 he hseg]
    exact hdir
  · have hdirF : e.isDir = false := by simpa using hdir
    rw [if_neg hdir, nodeFor_file hnodup he hdirF]

theorem wf_prefix_entry {D : List Ent} (hwf : wfTree D) {e : Ent} (he : e ∈ D)
    {r : Path} (hr : r ≠ []) (hpre : r <+: e.segs) : ∃ d ∈ D, d.segs = r := by
  by_cases hcase : r = e.segs
  · exact ⟨e, he, hcase.symm⟩
  · obtain ⟨d, hd, -, hseg⟩ := ancClosed_prefix hwf.2.2 he hr hpre hcase
    exact ⟨d, hd, hseg⟩

/-- Every path present below the destination after the restore is an
entry path of the tree. -/
theorem Inv_paths {D : List Ent} {dest : Path} {fs0 fs1 : FS}
    (hwf : wfTree D) (hinv : Inv D dest fs0 D fs1) :
    ∀ r, r ≠ [] → findFS fs1 (dest ++ r) ≠ none → ∃ e ∈ D, e.segs = r := by
  intro r hr hnn
  obtain ⟨e, he, hpre⟩ := hinv.2.2 r hr hnn
  exact wf_prefix_entry hwf he hr hpre

theorem wfTree_perm {D2 D : List Ent} (h : D2.Perm D) (hwf : wfTree D) :
    wfTree D2 := by
  obtain ⟨h1, h2, h3⟩ := hwf
  refine ⟨fun e he => h1 e (h.mem_iff.mp he), ((h.map Ent.segs).nodup_iff).mpr h2,
    fun e he i hi h0 => ?_⟩
  obtain ⟨d, hd, hdir, hseg⟩ := h3 e (h.mem_iff.mp he) i hi h0
  exact ⟨d, h.mem_iff.mpr hd, hdir, hseg⟩

theorem encodeArchive_length_perm {D2 D : List Ent} (h : D2.Perm D) :
    (encodeArchive (pack D2)).length = (encodeArchive (pack D)).length := by
  have hp : ((pack D2).map encodeEntry).Perm ((pack D).map encodeEntry) :=
    (h.map entryOf).map encodeEntry
  unfold encodeArchive
  simp only [List.length_append, List.length_flatten]
  rw [(hp.map List.length).sum_eq]
  simp [be64]

/-- A pre-existing file at the target of the unique regular entry naming
it ends up truncated and rewritten with the archived content, keeping its
pre-existing mode. -/
theorem unpackLoop_overwrite (dest : Path) (bs : List TarEnt) (e : TarEnt)
    (m : Nat) (c0 : Bytes) :
    ∀ (as : List TarEnt) (fs : FS),
    e.typeflag = tReg →
    findFS fs (cleanJoin dest (splitSegs e.name)) = some (.file m c0) →
    (∀ x ∈ as, ¬(x.typeflag = tReg ∧
      cleanJoin dest (splitSegs x.name) = cleanJoin dest (splitSegs e.name))) →
    (∀ x ∈ bs, ¬(x.typeflag = tReg ∧
      cleanJoin dest (splitSegs x.name) = cleanJoin dest (splitSegs e.name))) →
    (unpackLoop dest (as ++ e :: bs) fs).1 = none →
    findFS ((unpackLoop dest (as ++ e :: bs) fs).2)
      (cleanJoin dest (splitSegs e.name)) = some (.file m e.content) := by
  intro as
  induction as with
  | nil =>
    intro fs hreg ht _ hbs hok
    obtain ⟨fs1, hu, heq⟩ := unpackLoop_cons_ok (by simpa using hok)
    have hDir : ¬(e.typeflag = tDir) := by
      rw [hreg]
      simp [tReg, tDir]
    unfold unpackEntry at hu
    rw [if_neg hDir, if_pos hreg] at hu
    match hmk : mkdirAll (cleanJoin dest (splitSegs e.name)).dropLast 493 fs with
    | .error u =>
      simp only [hmk] at hu
      exact Except.noConfusion hu
    | .ok fsm =>
      simp only [hmk] at hu
      have htm : findFS fsm (cleanJoin dest (splitSegs e.name)) = some (.file m c0) :=
        mkdirAllAux_preserves hmk ht
      unfold writeReg at hu
      simp only [htm] at hu
      cases hu
      have hset : findFS (setFS fsm (cleanJoin dest (splitSegs e.name))
          (.file m e.content)) (cleanJoin dest (splitSegs e.name)) =
          some (.file m e.content) := findFS_setFS_self _ _ _
      rw [List.nil_append, heq]
      exact unpackLoop_preserves dest bs _ _ _ hset hbs
  | cons a as2 ih =>
    intro fs hreg ht has hbs hok
    obtain ⟨fs1, hu, heq⟩ := unpackLoop_cons_ok (by simpa using hok)
    have ht1 : findFS fs1 (cleanJoin dest (splitSegs e.name)) = some (.file m c0) :=
      unpackEntry_preserves hu ht (has a (by simp))
    have hok1 : (unpackLoop dest (as2 ++ e :: bs) fs1).1 = none := by
      have := hok
      rw [show (a :: as2) ++ e :: bs = a :: (as2 ++ e :: bs) from rfl, heq] at this
      exact this
    have := ih fs1 hreg ht1 (fun x hx => has x (by simp [hx])) hbs hok1
    rw [show (a :: as2) ++ e :: bs = a :: (as2 ++ e :: bs) from rfl, heq]
    exact this

/-! ## Claim theorems -/

/-- C3: container decoding fails — and never succeeds — exactly when the
input is shorter than the 61-byte header, or its first 4 bytes differ from
the magic tag, or its version byte is unknown, or the declared 8-byte
big-endian ciphertext length differs from the number of bytes remaining
after the header; in particular every truncation of a valid container and
every alteration of only the length field is rejected. -/
theorem claim3_decode_errors :
    (∀ b : Bytes, (∃ err, decodeContainer b = .error err) ↔
      (b.length < headerLen ∨ b.take 4 ≠ magicBytes ∨ b.getD 4 0 ≠ versionByte ∨
        be64dec ((b.drop 53).take 8) ≠ b.length - headerLen)) ∧
    (∀ (salt nonce : Bytes) (ts : Nat) (ct : Bytes) (k : Nat),
      salt.length = saltLen → nonce.length = nonceLen → ct.length < 2 ^ 64 →
      k < headerLen + ct.length →
      ∃ err, decodeContainer ((encodeContainer salt nonce ts ct).take k) = .error err) ∧
    (∀ (salt nonce : Bytes) (ts : Nat) (ct : Bytes) (L : Nat),
      salt.length = saltLen → nonce.length = nonceLen → L < 2 ^ 64 → L ≠ ct.length →
      ∃ err, decodeContainer (magicBytes ++ [versionByte] ++ salt ++ nonce ++
        be64 ts ++ be64 L ++ ct) = .error err) := by
  refine ⟨decode_error_iff, decode_truncated, ?_⟩
  intro salt nonce ts ct L hs hn hL hne
  rw [decode_append salt nonce (be64 ts) L ct hs hn (be64_length ts)]
  rw [if_pos (by rw [Nat.mod_eq_of_lt hL]; exact hne)]
  exact ⟨.badFormat, rfl⟩

theorem claim3_decode_errors_witness :
    decodeContainer ((encodeContainer (List.replicate 16 0) (List.replicate 24 0)
      5 [9, 9]).take 62) ≠ .ok (List.replicate 16 0, List.replicate 24 0, [9, 9]) := by
  obtain ⟨err, herr⟩ := claim3_decode_errors.2.1 (List.replicate 16 0)
    (List.replicate 24 0) 5 [9, 9] 62 (by decide) (by decide) (by decide) (by decide)
  intro hcontr
  rw [hcontr] at herr
  exact Except.noConfusion herr

/-- C4: restoring a backup with a passphrase whose derived key differs
from the backup key always fails with the single opaque authentication
error — the same error value produced for tampered ciphertext — and
leaves the filesystem untouched. -/
theorem claim4_wrong_passphrase (D : List Ent) (salt nonce : Bytes) (ts : Nat)
    (P P2 : Bytes) (dest : Path) (fs : FS)
    (hs : salt.length = saltLen) (hn : nonce.length = nonceLen)
    (hct : (sealM (deriveKey P salt) nonce (encodeArchive (pack D))).length < 2 ^ 64)
    (hkeys : deriveKey P2 salt ≠ deriveKey P salt) :
    Restore (Backup D salt nonce ts P) P2 dest fs = (some .authFailure, fs) := by
  have h1 : decodeContainer (Backup D salt nonce ts P) =
      .ok (salt, nonce, sealM (deriveKey P salt) nonce (encodeArchive (pack D))) := by
    show decodeContainer (encodeContainer salt nonce ts
      (sealM (deriveKey P salt) nonce (encodeArchive (pack D)))) = _
    exact decode_encode _ _ _ _ hs hn hct
  have h2 : openM (deriveKey P2 salt) nonce
      (sealM (deriveKey P salt) nonce (encodeArchive (pack D))) = none :=
    open_seal_wrong_key _ _ _ _ (by rw [deriveKey_length, deriveKey_length]) hkeys
  unfold Restore
  simp only [h1, h2]

theorem claim4_wrong_passphrase_witness :
    Restore (Backup [] (List.replicate 16 0) (List.replicate 24 0) 0 [1]) [2]
      [[101]] [([[101]], Node.dir 448)] =
      (some .authFailure, [([[101]], Node.dir 448)]) :=
  claim4_wrong_passphrase [] (List.replicate 16 0) (List.replicate 24 0) 0 [1] [2]
    [[101]] [([[101]], Node.dir 448)] (by decide) (by decide) (by decide) (by decide)

/-- C6: if container decoding fails, or the AEAD open fails, `Restore`
returns the corresponding error without any filesystem mutation — the
destination is exactly as before, not even `destDir` is created. -/
theorem claim6_no_mutation_on_failure (b : Bytes) (pass : Bytes) (dest : Path) (fs : FS) :
    (∀ err, decodeContainer b = .error err → Restore b pass dest fs = (some err, fs)) ∧
    (∀ salt nonce ct, decodeContainer b = .ok (salt, nonce, ct) →
      openM (deriveKey pass salt) nonce ct = none →
      Restore b pass dest fs = (some .authFailure, fs)) := by
  constructor
  · intro err herr
    unfold Restore
    simp only [herr]
  · intro salt nonce ct hdec hopen
    unfold Restore
    simp only [hdec, hopen]

theorem claim6_no_mutation_on_failure_witness :
    Restore [1, 2, 3] [7] [[101]] [([[101]], Node.dir 448)] =
      (some .badFormat, [([[101]], Node.dir 448)]) :=
  (claim6_no_mutation_on_failure [1, 2, 3] [7] [[101]]
    [([[101]], Node.dir 448)]).1 .badFormat (by rfl)

/-- C7: the container bytes written by `Backup`'s write sequence are
exactly magic, version byte, salt, nonce, big-endian timestamp, big-endian
ciphertext length, and ciphertext, concatenated in that order with nothing
else; decoding such bytes recovers the identical salt, nonce and
ciphertext. -/
theorem claim7_container_layout (salt nonce : Bytes) (ts : Nat) (ct : Bytes)
    (hs : salt.length = saltLen) (hn : nonce.length = nonceLen)
    (hct : ct.length < 2 ^ 64) :
    encodeContainer salt nonce ts ct =
      magicBytes ++ [versionByte] ++ salt ++ nonce ++ be64 ts ++ be64 ct.length ++ ct ∧
    (encodeContainer salt nonce ts ct).length = headerLen + ct.length ∧
    decodeContainer (encodeContainer salt nonce ts ct) = .ok (salt, nonce, ct) :=
  ⟨encodeContainer_eq salt nonce ts ct, encodeContainer_length salt nonce ts ct hs hn,
    decode_encode salt nonce ts ct hs hn hct⟩

theorem claim7_container_layout_witness :
    decodeContainer (encodeContainer (List.replicate 16 1) (List.replicate 24 2) 77 [5, 6]) =
      .ok (List.replicate 16 1, List.replicate 24 2, [5, 6]) :=
  (claim7_container_layout (List.replicate 16 1) (List.replicate 24 2) 77 [5, 6]
    (by decide) (by decide) (by decide)).2.2

/-- C8: key derivation is deterministic and always yields a 32-byte key,
and `Restore` reconstructs exactly the `Backup` key because decoding a
container returns the stored salt unchanged. -/
theorem claim8_derive_deterministic (pass salt nonce : Bytes) (ts : Nat) (ct : Bytes)
    (hs : salt.length = saltLen) (hn : nonce.length = nonceLen)
    (hct : ct.length < 2 ^ 64) :
    deriveKey pass salt = deriveKey pass salt ∧
    (deriveKey pass salt).length = 32 ∧
    (∀ salt2 nonce2 ct2,
      decodeContainer (encodeContainer salt nonce ts ct) = .ok (salt2, nonce2, ct2) →
      deriveKey pass salt2 = deriveKey pass salt) := by
  refine ⟨rfl, deriveKey_length pass salt, fun salt2 nonce2 ct2 hdec => ?_⟩
  rw [decode_encode salt nonce ts ct hs hn hct] at hdec
  cases hdec
  rfl

theorem claim8_derive_deterministic_witness :
    (deriveKey [3] (List.replicate 16 0)).length = 32 :=
  (claim8_derive_deterministic [3] (List.replicate 16 0) (List.replicate 24 0) 0 []
    (by decide) (by decide) (by decide)).2.1

/-- C9: the 8 timestamp bytes (file offsets 45–52) are not read by
`Restore`: replacing them with any 8 bytes yields a container on which
`Restore` behaves identically, for every passphrase, destination and
filesystem. -/
theorem claim9_timestamp_not_authenticated (salt nonce : Bytes) (ts : Nat)
    (ct tb pass : Bytes) (dest : Path) (fs : FS)
    (hs : salt.length = saltLen) (hn : nonce.length = nonceLen)
    (htb : tb.length = 8) :
    (encodeContainer salt nonce ts ct).take 45 ++ tb ++
        (encodeContainer salt nonce ts ct).drop 53 =
      magicBytes ++ [versionByte] ++ salt ++ nonce ++ tb ++ be64 ct.length ++ ct ∧
    Restore ((encodeContainer salt nonce ts ct).take 45 ++ tb ++
        (encodeContainer salt nonce ts ct).drop 53) pass dest fs =
      Restore (encodeContainer salt nonce ts ct) pass dest fs := by
  have hb : (encodeContainer salt nonce ts ct).take 45 ++ tb ++
      (encodeContainer salt nonce ts ct).drop 53 =
      magicBytes ++ [versionByte] ++ salt ++ nonce ++ tb ++ be64 ct.length ++ ct := by
    rw [encode_take45 _ _ _ _ hs hn, encode_drop53 _ _ _ _ hs hn]
    simp [List.append_assoc]
  refine ⟨hb, ?_⟩
  have hd : decodeContainer ((encodeContainer salt nonce ts ct).take 45 ++ tb ++
      (encodeContainer salt nonce ts ct).drop 53) =
      decodeContainer (encodeContainer salt nonce ts ct) := by
    rw [hb, decode_append salt nonce tb ct.length ct hs hn htb, encodeContainer_eq,
      decode_append salt nonce (be64 ts) ct.length ct hs hn (be64_length ts)]
  unfold Restore
  rw [hd]

theorem claim9_timestamp_not_authenticated_witness :
    Restore ((encodeContainer (List.replicate 16 0) (List.replicate 24 0) 7 [9]).take 45 ++
        [255, 255, 255, 255, 255, 255, 255, 255] ++
        (encodeContainer (List.replicate 16 0) (List.replicate 24 0) 7 [9]).drop 53)
      [1] [[101]] [] =
      Restore (encodeContainer (List.replicate 16 0) (List.replicate 24 0) 7 [9])
        [1] [[101]] [] :=
  (claim9_timestamp_not_authenticated (List.replicate 16 0) (List.replicate 24 0) 7 [9]
    [255, 255, 255, 255, 255, 255, 255, 255] [1] [[101]] []
    (by decide) (by decide) (by decide)).2

/-- C5: altering any single byte in the ciphertext region (the bytes after
the 61-byte header) of a container produced by `Backup` makes `Restore`
with the correct passphrase fail with the opaque authentication error,
touching nothing on the filesystem. -/
theorem claim5_tamper_detection (D : List Ent) (salt nonce pass : Bytes) (ts : Nat)
    (dest : Path) (fs : FS) (i v : Nat)
    (hs : salt.length = saltLen) (hn : nonce.length = nonceLen)
    (hct : (sealM (deriveKey pass salt) nonce (encodeArchive (pack D))).length < 2 ^ 64)
    (hi : i < (sealM (deriveKey pass salt) nonce (encodeArchive (pack D))).length)
    (hv : v ≠ (Backup D salt nonce ts pass).getD (headerLen + i) 0) :
    Restore ((Backup D salt nonce ts pass).set (headerLen + i) v) pass dest fs =
      (some .authFailure, fs) := by
  set key := deriveKey pass salt with hkey
  set ct := sealM key nonce (encodeArchive (pack D)) with hctdef
  have hsplit : Backup D salt nonce ts pass =
      (magicBytes ++ [versionByte] ++ salt ++ nonce ++ be64 ts ++ be64 ct.length) ++ ct := by
    show encodeContainer salt nonce ts ct = _
    rw [encodeContainer_eq]
  have hhdr : (magicBytes ++ [versionByte] ++ salt ++ nonce ++ be64 ts ++
      be64 ct.length).length = headerLen := by
    simp [magicBytes, versionByte, hs, hn, be64, headerLen, saltLen, nonceLen]
  have hset : (Backup D salt nonce ts pass).set (headerLen + i) v =
      (magicBytes ++ [versionByte] ++ salt ++ nonce ++ be64 ts ++ be64 ct.length) ++
        ct.set i v := by
    rw [hsplit, List.set_append, if_neg (by rw [hhdr]; omega), hhdr,
      Nat.add_sub_cancel_left]
  have hgetd : (Backup D salt nonce ts pass).getD (headerLen + i) 0 = ct.getD i 0 := by
    have hdrop : (Backup D salt nonce ts pass).drop headerLen = ct := by
      rw [hsplit]
      exact List.drop_left' hhdr
    rw [← hdrop, getD_drop]
  have hdec : decodeContainer ((Backup D salt nonce ts pass).set (headerLen + i) v) =
      .ok (salt, nonce, ct.set i v) := by
    rw [hset, show (magicBytes ++ [versionByte] ++ salt ++ nonce ++ be64 ts ++
        be64 ct.length) ++ ct.set i v = magicBytes ++ [versionByte] ++ salt ++ nonce ++
        be64 ts ++ be64 ct.length ++ ct.set i v from by simp [List.append_assoc],
      decode_append salt nonce (be64 ts) ct.length (ct.set i v) hs hn (be64_length ts)]
    rw [if_neg (by rw [List.length_set, Nat.mod_eq_of_lt hct]; simp)]
  have hopen : openM key nonce (ct.set i v) = none := by
    apply open_seal_tampered key nonce (encodeArchive (pack D)) (ct.set i v) i
    · rw [List.length_set]
    · rw [List.length_set]
      exact hi
    · have h1 : (ct.set i v).getD i 0 = v := by
        rw [List.getD_eq_getElem?_getD, List.getElem?_set_self hi]
        rfl
      rw [h1]
      rw [hgetd] at hv
      exact hv
    · intro j hj
      rw [List.getD_eq_getElem?_getD, List.getElem?_set_ne (fun h => hj h.symm),
        ← List.getD_eq_getElem?_getD]
  unfold Restore
  simp only [hdec, hopen]

theorem claim5_tamper_detection_witness :
    Restore ((Backup [] (List.replicate 16 0) (List.replicate 24 0) 0 [1]).set
        (headerLen + 0) 255) [1] [[101]] [([[101]], Node.dir 448)] =
      (some .authFailure, [([[101]], Node.dir 448)]) :=
  claim5_tamper_detection [] (List.replicate 16 0) (List.replicate 24 0) [1] 0
    [[101]] [([[101]], Node.dir 448)] 0 255
    (by decide) (by decide) (by decide) (by decide) (by decide)

/-- C2: the extraction loop does not validate entry paths: an archive
entry named `"../evil"` is extracted without error, and the file is
written outside the destination directory (here `"ho/d"`), at a path that
is not under the destination.  The required traversal guard is absent. -/
theorem claim2_traversal_not_rejected :
    (unpackLoop [[104, 111], [100]]
      [⟨[46, 46, 47, 101, 118, 105, 108], tReg, 420, [42]⟩]
      [([[104, 111]], Node.dir 493), ([[104, 111], [100]], Node.dir 448)]).1 = none ∧
    findFS (unpackLoop [[104, 111], [100]]
      [⟨[46, 46, 47, 101, 118, 105, 108], tReg, 420, [42]⟩]
      [([[104, 111]], Node.dir 493), ([[104, 111], [100]], Node.dir 448)]).2
      [[104, 111], [101, 118, 105, 108]] = some (Node.file 420 [42]) ∧
    ¬([[104, 111], [100]] <+: [[104, 111], [101, 118, 105, 108]]) := by
  decide

/-- C10: `Restore`'s extraction merges: any pre-existing node at a path no
archive entry resolves to survives unchanged, and a pre-existing regular
file matched by the unique regular entry naming its path is truncated and
overwritten with the archived content (keeping its pre-existing mode). -/
theorem claim10_merge (dest : Path) (ar : List TarEnt) (fs : FS) :
    (∀ p v, findFS fs p = some v →
      (∀ x ∈ ar, cleanJoin dest (splitSegs x.name) ≠ p) →
      findFS (unpackLoop dest ar fs).2 p = some v) ∧
    (∀ (as bs : List TarEnt) (e : TarEnt) (m : Nat) (c0 : Bytes),
      ar = as ++ e :: bs → e.typeflag = tReg →
      findFS fs (cleanJoin dest (splitSegs e.name)) = some (.file m c0) →
      (∀ x ∈ as ++ bs, ¬(x.typeflag = tReg ∧
        cleanJoin dest (splitSegs x.name) = cleanJoin dest (splitSegs e.name))) →
      (unpackLoop dest ar fs).1 = none →
      findFS ((unpackLoop dest ar fs).2) (cleanJoin dest (splitSegs e.name)) =
        some (.file m e.content)) := by
  constructor
  · intro p v hp hnt
    exact unpackLoop_preserves dest ar fs p v hp
      (fun x hx hcontr => hnt x hx hcontr.2)
  · rintro as bs e m c0 rfl hreg ht hun hok
    exact unpackLoop_overwrite dest bs e m c0 as fs hreg ht
      (fun x hx => hun x (by simp [hx])) (fun x hx => hun x (by simp [hx])) hok

theorem claim10_merge_witness :
    findFS (unpackLoop [[100]] [⟨[107], tReg, 420, [9]⟩]
      [([[100]], Node.dir 448), ([[100], [107]], Node.file 400 [1]),
       ([[100], [120]], Node.file 384 [3])]).2 [[100], [120]] =
      some (Node.file 384 [3]) ∧
    findFS (unpackLoop [[100]] [⟨[107], tReg, 420, [9]⟩]
      [([[100]], Node.dir 448), ([[100], [107]], Node.file 400 [1]),
       ([[100], [120]], Node.file 384 [3])]).2 [[100], [107]] =
      some (Node.file 400 [9]) := by
  constructor
  · exact (claim10_merge [[100]] [⟨[107], tReg, 420, [9]⟩]
      [([[100]], Node.dir 448), ([[100], [107]], Node.file 400 [1]),
       ([[100], [120]], Node.file 384 [3])]).1 [[100], [120]] (Node.file 384 [3])
      (by decide) (by decide)
  · exact (claim10_merge [[100]] [⟨[107], tReg, 420, [9]⟩]
      [([[100]], Node.dir 448), ([[100], [107]], Node.file 400 [1]),
       ([[100], [120]], Node.file 384 [3])]).2 [] [] ⟨[107], tReg, 420, [9]⟩ 400 [1]
      (by decide) (by decide) (by decide) (by decide) (by decide)

/-- C1 (amended): restoring a backup of a well-formed tree `D` — packed in
any enumeration order `D2` — into an empty destination succeeds and
reproduces the same set of relative paths, with every regular file
carrying its original content and mode bits; directories, however, are
recreated with the fixed mode `0o755` (493) rather than their archived
mode, and everything outside the destination is untouched. -/
theorem claim1_round_trip_amended (D D2 : List Ent) (dest : Path) (fs0 : FS)
    (salt nonce pass : Bytes) (ts : Nat)
    (hperm : D2.Perm D)
    (hs : salt.length = saltLen) (hn : nonce.length = nonceLen)
    (hwf : wfTree D) (hkD : D.length < 2 ^ 64)
    (hsmall : ∀ e ∈ pack D, entSmall e)
    (hct : 2 * (encodeArchive (pack D)).length + 56 < 2 ^ 64)
    (hdest : ∀ q, q ≠ [] → q <+: dest → ∃ mo, findFS fs0 q = some (.dir mo))
    (hempty : ∀ r, r ≠ [] → findFS fs0 (dest ++ r) = none) :
    ∃ fs1, Restore (Backup D2 salt nonce ts pass) pass dest fs0 = (none, fs1) ∧
      (∀ e ∈ D, findFS fs1 (dest ++ e.segs) =
        some (if e.isDir = true then Node.dir 493 else Node.file e.mode e.content)) ∧
      (∀ r, r ≠ [] → findFS fs1 (dest ++ r) ≠ none → ∃ e ∈ D, e.segs = r) ∧
      (∀ p, (∀ r, r ≠ [] → p ≠ dest ++ r) → findFS fs1 p = findFS fs0 p) := by
  have hwf2 := wfTree_perm hperm hwf
  have hkD2 : D2.length < 2 ^ 64 := by
    rw [hperm.length_eq]
    exact hkD
  have hsmall2 : ∀ e ∈ pack D2, entSmall e := by
    intro e he
    obtain ⟨x, hx, rfl⟩ := List.mem_map.mp he
    exact hsmall (entryOf x) (List.mem_map_of_mem _ (hperm.mem_iff.mp hx))
  have hct2 : 2 * (encodeArchive (pack D2)).length + 56 < 2 ^ 64 := by
    rw [encodeArchive_length_perm hperm]
    exact hct
  obtain ⟨fs1, hres, hinv⟩ := Restore_Backup D2 dest fs0 salt nonce ts pass hs hn
    hwf2 hkD2 hsmall2 hct2 hdest hempty
  refine ⟨fs1, hres, ?_, ?_, hinv.1⟩
  · intro e he
    exact Inv_node hwf2 hinv e (hperm.mem_iff.mpr he)
  · intro r hr hnn
    obtain ⟨e, he, hseg⟩ := Inv_paths hwf2 hinv r hr hnn
    exact ⟨e, hperm.mem_iff.mp he, hseg⟩

theorem claim1_round_trip_amended_witness :
    (Restore (Backup [⟨[[100], [102]], false, 420, [9]⟩, ⟨[[100]], true, 448, []⟩]
        (List.replicate 16 0) (List.replicate 24 0) 0 [7]) [7] [[101]]
      [([[101]], Node.dir 448)]).1 = none := by
  have hdest : ∀ q, q ≠ [] → q <+: [[101]] →
      ∃ mo, findFS [([[101]], Node.dir 448)] q = some (.dir mo) := by
    intro q hq hpre
    rcases List.prefix_cons_iff.mp hpre with rfl | ⟨t, rfl, ht⟩
    · exact absurd rfl hq
    · rw [List.prefix_nil.mp ht]
      exact ⟨448, rfl⟩
  have hempty : ∀ r, r ≠ [] → findFS [([[101]], Node.dir 448)] ([[101]] ++ r) = none := by
    intro r hr
    show (if [[101]] = [[101]] ++ r then some (Node.dir 448) else none) = none
    rw [if_neg]
    intro hcontr
    have := congrArg List.length hcontr
    simp at this
    exact hr this
  obtain ⟨fs1, hres, -⟩ := claim1_round_trip_amended
    [⟨[[100]], true, 448, []⟩, ⟨[[100], [102]], false, 420, [9]⟩]
    [⟨[[100], [102]], false, 420, [9]⟩, ⟨[[100]], true, 448, []⟩]
    [[101]] [([[101]], Node.dir 448)] (List.replicate 16 0) (List.replicate 24 0) [7] 0
    (by decide) (by decide) (by decide) (by decide) (by decide) (by decide) (by decide)
    hdest hempty
  rw [hres]

set_option maxRecDepth 40000 in
/-- C1 counterexample: the claim as stated (mode bits preserved for every
entry, directories included) is false — a directory archived with mode
`0o700` (448) is restored with mode `0o755` (493), because the extraction
loop calls `os.MkdirAll(target, 0o755)` ignoring `hdr.Mode`. -/
theorem claim1_counterexample :
    (Restore (Backup [⟨[[100]], true, 448, ([] : Bytes)⟩] (List.replicate 16 0)
        (List.replicate 24 0) 0 [7]) [7] [[101]] [([[101]], Node.dir 448)]).1 = none ∧
    findFS (Restore (Backup [⟨[[100]], true, 448, ([] : Bytes)⟩] (List.replicate 16 0)
        (List.replicate 24 0) 0 [7]) [7] [[101]] [([[101]], Node.dir 448)]).2
      [[101], [100]] = some (Node.dir 493) ∧
    ¬findFS (Restore (Backup [⟨[[100]], true, 448, ([] : Bytes)⟩] (List.replicate 16 0)
        (List.replicate 24 0) 0 [7]) [7] [[101]] [([[101]], Node.dir 448)]).2
      [[101], [100]] = some (Node.dir 448) := by
  decide

end Gipo
